import Mathlib

/-!
# Verification of the repository-contribution analysis engine

Shallow embedding of the contribution-analysis core of
`skills/tools-repo-review/scripts/repo_review_om.py`: the exclusion
classifier (`should_exclude_file`, `should_exclude_author`), the file
categoriser (`get_file_category`), the streaming log parser
(`parse_git_log`) and the cross-repository aggregation loop
(`analyze_repos`).

Strings are modelled as `List Char` (`Str`), which keeps every string
operation structurally recursive and hence kernel-computable.  Python
`dict`s (including `defaultdict`s) are modelled as insertion-ordered
association lists with in-place update (`updD`), Python `set`s as
`Finset`s.  Python's arbitrary-precision `int` is `Int`; dates are
proleptic-Gregorian ordinals (`Nat`), exactly the value
`datetime.toordinal()` returns, so `datetime` equality/arithmetic on
whole days is `Nat` equality/arithmetic.

The ASCII fragment of Python's Unicode-aware `str.lower`, `str.strip`
and `int(...)` is modelled; every string the analysed claims touch is
ASCII.
-/

/-- Strings of the model: lists of characters. -/
abbrev Str := List Char

/-- `splitOn1 sep l` models Python `str.split(sep)` for a one-character
separator: it always returns at least one (possibly empty) piece, and
adjacent separators produce empty pieces. -/
def splitOn1 (sep : Char) : Str → List Str
  | [] => [[]]
  | c :: rest =>
    match splitOn1 sep rest with
    | [] => [[]]
    | g :: gs => if c = sep then [] :: g :: gs else (c :: g) :: gs

/-- The characters Python's default `str.strip` removes (ASCII part). -/
def pySpace (c : Char) : Bool :=
  c = ' ' || c = '\t' || c = '\n' || c = '\r' || c = '\x0b' || c = '\x0c'

/-- Python `str.strip()` (ASCII whitespace). -/
def pyStrip (l : Str) : Str :=
  ((l.dropWhile pySpace).reverse.dropWhile pySpace).reverse

/-- Python `str.lower()` (ASCII fragment). -/
def pyLower (c : Char) : Char :=
  if 'A' ≤ c ∧ c ≤ 'Z' then Char.ofNat (c.toNat + 32) else c

/-- Lowercase a whole string, `str.lower()`. -/
def toLowerL (l : Str) : Str := l.map pyLower

/-- Python substring test `needle in hay`. -/
def containsSub (hay needle : Str) : Bool :=
  hay.tails.any fun t => needle.isPrefixOf t

/-- `os.path.basename` for forward-slash paths: everything after the
last `/` (the whole path when it has no `/`). -/
def basenameL (p : Str) : Str :=
  (p.reverse.takeWhile (· ≠ '/')).reverse

/-- The extension component of `os.path.splitext`: the suffix of the
basename starting at its last dot, provided some earlier character of
the basename is not a dot (so `".gitignore"` has no extension);
empty when there is no such dot. -/
def splitextExtL (p : Str) : Str :=
  let rb := p.reverse.takeWhile (· ≠ '/')
  let pre := rb.takeWhile (· ≠ '.')
  if pre.length < rb.length then
    if (rb.drop (pre.length + 1)).any (· ≠ '.') then '.' :: pre.reverse else []
  else []

/-- Shell-glob matcher of `fnmatch.fnmatch` on POSIX (where
`os.path.normcase` is the identity): `*` matches any sequence
(including `/`), `?` any single character, other characters
literally.  Character classes `[...]` do not occur in the program's
pattern list and are not modelled. -/
def globMatch : Str → Str → Bool
  | [], s => s.isEmpty
  | '*' :: ps, s => s.tails.any fun t => globMatch ps t
  | _ :: _, [] => false
  | p :: ps, c :: cs => (p = '?' || p = c) && globMatch ps cs

/-- Digit string as accepted by Python `int`, tail worker: after the
leading digit, single underscores may separate digits. -/
def pyDigitsGo (acc : Nat) : Str → Option Nat
  | [] => some acc
  | '_' :: c :: rest =>
    if c.isDigit then pyDigitsGo (acc * 10 + (c.toNat - '0'.toNat)) rest else none
  | ['_'] => none
  | c :: rest =>
    if c.isDigit then pyDigitsGo (acc * 10 + (c.toNat - '0'.toNat)) rest else none

/-- Digit string as accepted by Python `int` (ASCII digits, internal
single underscores). -/
def pyDigits : Str → Option Nat
  | [] => none
  | c :: rest =>
    if c.isDigit then pyDigitsGo (c.toNat - '0'.toNat) rest else none

/-- Python `int(s)` on strings: strip whitespace, optional sign,
digits.  Returns `none` where Python raises `ValueError`.  Note that
Python `int` (and hence the program) accepts *negative* numbers; only
the literal `-` is rejected. -/
def pyInt (s : Str) : Option Int :=
  match pyStrip s with
  | '+' :: rest => (pyDigits rest).map Int.ofNat
  | '-' :: rest => (pyDigits rest).map fun n => -(n : Int)
  | rest => (pyDigits rest).map Int.ofNat

/-- Gregorian leap year. -/
def isLeap (y : Nat) : Bool := y % 4 = 0 && (y % 100 ≠ 0 || y % 400 = 0)

/-- Days in a month (`calendar`-correct). -/
def daysInMonth (y m : Nat) : Nat :=
  if m = 2 then (if isLeap y then 29 else 28)
  else if m = 4 ∨ m = 6 ∨ m = 9 ∨ m = 11 then 30
  else 31

/-- Days before month `m` in a non-leap year. -/
def daysBeforeMonth (m : Nat) : Nat :=
  match m with
  | 1 => 0 | 2 => 31 | 3 => 59 | 4 => 90 | 5 => 120 | 6 => 151
  | 7 => 181 | 8 => 212 | 9 => 243 | 10 => 273 | 11 => 304 | _ => 334

/-- Proleptic Gregorian ordinal of a date, the exact value of Python
`datetime.date(y, m, d).toordinal()` (day 1 = 0001-01-01). -/
def toOrdinalYMD (y m d : Nat) : Nat :=
  365 * (y - 1) + (y - 1) / 4 - (y - 1) / 100 + (y - 1) / 400
    + daysBeforeMonth m + (if 2 < m ∧ isLeap y then 1 else 0) + d

/-- Nat digit value of an ASCII digit string. -/
def digitsToNat (l : Str) : Nat :=
  l.foldl (fun a c => a * 10 + (c.toNat - '0'.toNat)) 0

/-- `datetime.strptime(s, "%Y-%m-%d")`, returning the date's ordinal.
CPython's `_strptime` matches `%Y` as exactly four digits, `%m` as
`1[0-2]|0[1-9]|[1-9]` and `%d` as `3[01]|[12]\d|0[1-9]|[1-9]` with no
input left over; since neither component may contain `-`, this is the
same as splitting on `-` into exactly three pieces of those shapes.
The `datetime` constructor then rejects year 0 and days past the end
of the month. -/
def pyDateYMD (s : Str) : Option Nat :=
  match splitOn1 '-' s with
  | [ys, ms, ds] =>
    if ys.length = 4 && ys.all Char.isDigit
        && (ms.length = 1 || ms.length = 2) && ms.all Char.isDigit
        && (ds.length = 1 || ds.length = 2) && ds.all Char.isDigit then
      let y := digitsToNat ys
      let m := digitsToNat ms
      let d := digitsToNat ds
      if 1 ≤ y && 1 ≤ m && m ≤ 12 && 1 ≤ d && d ≤ daysInMonth y m then
        some (toOrdinalYMD y m d)
      else none
    else none
  | _ => none

/-- `date.weekday()` on an ordinal: 0 = Monday … 6 = Sunday.  For
`n ≥ 1` this is `(n - 1) % 7` (ordinal 1, 0001-01-01, was a Monday);
written without truncated subtraction. -/
def pyWeekday (n : Nat) : Nat := (n + 6) % 7

/-- `current_date - timedelta(days=current_date.weekday())`:
the Monday on or before the given day. -/
def weekStart (n : Nat) : Nat := n - pyWeekday n

/-! ## Configuration (transcribed from the module-level constants) -/

/-- `DOC_EXTENSIONS = {".md", ".mdx", ".rst", ".txt"}`. -/
def DOC_EXTENSIONS : List Str :=
  ([".md", ".mdx", ".rst", ".txt"] : List String).map String.toList

/-- `EXCLUDE_AUTHORS`. -/
def EXCLUDE_AUTHORS : List Str :=
  (["gpt-engineer-app[bot]", "dependabot[bot]", "renovate[bot]",
    "github-actions[bot]", "cursor agent", "copilot"] : List String).map String.toList

/-- `EXCLUDE_PATTERNS`, in source order. -/
def EXCLUDE_PATTERNS : List Str :=
  (["node_modules/*", "vendor/*", "venv/*", ".venv/*",
    "dist/*", "build/*", "coverage/*", ".next/*", "out/*",
    "package-lock.json", "pnpm-lock.yaml", "yarn.lock",
    "Cargo.lock", "Gemfile.lock", "poetry.lock", "*.lock",
    "*.generated.*", "*.d.ts", "types.ts",
    "logs/*", "*.log", "temp/*", "tmp/*",
    "*.min.js", "*.min.css",
    "*.jpg", "*.jpeg", "*.png", "*.gif", "*.svg", "*.ico",
    "*.woff", "*.woff2", "*.ttf", "*.eot", "*.mp4", "*.mp3",
    "*.wav", "*.pdf", "*.zip", "*.tar", "*.gz",
    ".cursor/*", ".vscode/*", ".idea/*", "*.tfstate", "*.tfstate.*",
    ".bmad/*", "bmad/*", "*.excalidraw",
    "*.map", ".git/*", ".DS_Store", "Thumbs.db"] : List String).map String.toList

/-- `FILE_CATEGORIES`, the extension-to-category dict, in source order. -/
def FILE_CATEGORIES : List (Str × Str) :=
  ([(".tsx", "frontend"), (".jsx", "frontend"), (".vue", "frontend"),
    (".svelte", "frontend"),
    (".css", "frontend"), (".scss", "frontend"), (".sass", "frontend"),
    (".less", "frontend"),
    (".html", "frontend"), (".htm", "frontend"),
    (".py", "backend"), (".go", "backend"), (".rs", "backend"),
    (".java", "backend"),
    (".rb", "backend"), (".php", "backend"), (".cs", "backend"),
    (".cpp", "backend"),
    (".c", "backend"), (".h", "backend"),
    (".ts", "fullstack"), (".js", "fullstack"), (".mjs", "fullstack"),
    (".cjs", "fullstack"),
    (".sql", "database"), (".prisma", "database"), (".graphql", "database"),
    (".gql", "database"),
    (".yml", "config"), (".yaml", "config"), (".toml", "config"),
    (".ini", "config"),
    (".json", "config"), (".env", "config"), (".conf", "config"),
    (".tf", "infra"), (".tfvars", "infra"), (".hcl", "infra"),
    (".dockerfile", "infra"), (".dockerignore", "infra"),
    (".md", "docs"), (".mdx", "docs"), (".rst", "docs"), (".txt", "docs"),
    (".sh", "scripts"), (".bash", "scripts"), (".zsh", "scripts"),
    (".fish", "scripts"),
    (".ps1", "scripts"), (".bat", "scripts"), (".cmd", "scripts"),
    (".test.ts", "testing"), (".test.js", "testing"), (".spec.ts", "testing"),
    (".spec.js", "testing"),
    (".test.tsx", "testing"), (".test.jsx", "testing")] : List (String × String)
   ).map fun kv => (kv.1.toList, kv.2.toList)

/-! ## Association-list maps

Python `dict`/`defaultdict` is modelled as an insertion-ordered
association list.  `findV` is `dict.__getitem__` (as an `Option`);
`updD k d f m` is `m[k] = f(m[k])` for a `defaultdict` with default
`d`: the first binding of `k` is modified in place, a missing key is
appended at the end with value `f d`. -/

/-- First value bound to `k`. -/
def findV {α β : Type} [DecidableEq α] (k : α) : List (α × β) → Option β
  | [] => none
  | kv :: rest => if k = kv.1 then some kv.2 else findV k rest

/-- Defaultdict-style update in place. -/
def updD {α β : Type} [DecidableEq α] (k : α) (d : β) (f : β → β) :
    List (α × β) → List (α × β)
  | [] => [(k, f d)]
  | kv :: rest =>
    if k = kv.1 then (kv.1, f kv.2) :: rest else kv :: updD k d f rest

/-! ## The classifier -/

/-- `get_file_category(filepath)`. -/
def get_file_category (filepath : Str) : Str :=
  let basename := toLowerL (basenameL filepath)
  if containsSub basename ".test.".toList || containsSub basename ".spec.".toList
      || containsSub basename "_test.".toList then
    "testing".toList
  else if basename = "dockerfile".toList
      || "dockerfile.".toList.isPrefixOf basename then
    "infra".toList
  else
    ((findV (splitextExtL (toLowerL filepath)) FILE_CATEGORIES).getD "other".toList)

/-- `pattern.rstrip("/*")` (the second `.rstrip("*")` in the source is
a no-op after the first): drop trailing `/` and `*` characters. -/
def rstripSlashStar (pat : Str) : Str :=
  (pat.reverse.dropWhile fun c => c = '/' || c = '*').reverse

/-- `should_exclude_file(filepath)`.  The module-global `EXCLUDE_DOCS`
flag is passed explicitly as `excludeDocs`. -/
def should_exclude_file (excludeDocs : Bool) (filepath : Str) : Bool :=
  let basename := basenameL filepath
  let filepathLower := toLowerL filepath
  (excludeDocs && (DOC_EXTENSIONS.contains (splitextExtL filepathLower)))
  || EXCLUDE_PATTERNS.any fun pattern =>
      globMatch pattern filepath
      || globMatch ('*' :: '/' :: pattern) filepath
      || globMatch pattern basename
      || (pattern.contains '/'
          && (let dirPattern := rstripSlashStar pattern
              !dirPattern.isEmpty && containsSub filepathLower dirPattern))

/-- `should_exclude_author(author)`. -/
def should_exclude_author (author : Str) : Bool :=
  EXCLUDE_AUTHORS.any fun ex => containsSub (toLowerL author) (toLowerL ex)

/-! ## Parser data model

`parse_git_log` accumulates, per author, the dict
`{"commits": set(), "inserts": 0, "deletes": 0, "weekly": …,
"by_ext": …, "by_category": …}`. -/

/-- An insertions/deletions pair, the `{"inserts": 0, "deletes": 0}`
leaf of the `by_ext` / `by_category` defaultdicts. -/
structure Bucket where
  inserts : Int
  deletes : Int
deriving DecidableEq, Repr

/-- A weekly bucket: `{"inserts": 0, "deletes": 0, "commits": set()}`. -/
structure WeekBucket where
  inserts : Int
  deletes : Int
  commits : Finset Str
deriving DecidableEq

/-- Per-author accumulator of `parse_git_log`. -/
structure AuthorStats where
  commits : Finset Str
  inserts : Int
  deletes : Int
  weekly : List (Nat × WeekBucket)
  by_ext : List (Str × Bucket)
  by_category : List (Str × Bucket)
deriving DecidableEq

/-- The defaultdict default: a fresh author entry. -/
def AuthorStats.empty : AuthorStats := ⟨∅, 0, 0, [], [], []⟩

/-- Zero `Bucket`. -/
def Bucket.zero : Bucket := ⟨0, 0⟩

/-- Zero `WeekBucket`. -/
def WeekBucket.zero : WeekBucket := ⟨0, 0, ∅⟩

/-- The parser's loop state: the stats dict plus `current_author`,
`current_commit`, `current_date`. -/
structure ParseState where
  stats : List (Str × AuthorStats)
  author : Option Str
  commit : Option Str
  date : Option Nat
deriving DecidableEq

/-- Initial parser state: empty dict, all three cursors `None`. -/
def ParseState.init : ParseState := ⟨[], none, none, none⟩

/-- Python truthiness of `current_author`: neither `None` nor `""`. -/
def authorTruthy : Option Str → Bool
  | none => false
  | some a => !a.isEmpty

/-- The whole-line effect of one counted numstat line on its author's
accumulator: the source performs five consecutive mutations of
`stats[current_author]` (commit-set insert, `inserts +=`,
`deletes +=`, `by_ext` bucket when the extension is non-empty,
`by_category` bucket, and, when `current_date` is set, the weekly
bucket); their composite is recorded here as one record update.
`commit.getD []` is never the fallback in reachable states: whenever
`current_author` is truthy a `COMMIT|` line has set `current_commit`. -/
def countLine (st : AuthorStats) (commit : Option Str) (date : Option Nat)
    (ins dels : Int) (filepath : Str) : AuthorStats :=
  let ext := splitextExtL (toLowerL filepath)
  { commits := insert (commit.getD []) st.commits,
    inserts := st.inserts + ins,
    deletes := st.deletes + dels,
    by_ext :=
      if ext.isEmpty then st.by_ext
      else updD ext Bucket.zero
        (fun b => ⟨b.inserts + ins, b.deletes + dels⟩) st.by_ext,
    by_category :=
      updD (get_file_category filepath) Bucket.zero
        (fun b => ⟨b.inserts + ins, b.deletes + dels⟩) st.by_category,
    weekly :=
      match date with
      | none => st.weekly
      | some dt =>
        updD (weekStart dt) WeekBucket.zero
          (fun w => ⟨w.inserts + ins, w.deletes + dels,
                     insert (commit.getD []) w.commits⟩) st.weekly }

/-- Whether a non-`COMMIT|` line is counted in state `s`: exactly
three tab-separated fields, a truthy `current_author`, neither count
field the binary marker `-`, a path that survives
`should_exclude_file`, and both count fields accepted by `int()`. -/
def countedLine (excludeDocs : Bool) (s : ParseState) (line : Str) : Bool :=
  match splitOn1 '\t' line with
  | [insF, delsF, filepath] =>
    authorTruthy s.author
    && !(insF = ['-'] || delsF = ['-'])
    && !should_exclude_file excludeDocs filepath
    && (pyInt insF).isSome && (pyInt delsF).isSome
  | _ => false

/-- One iteration of the `for line in …` loop of `parse_git_log`. -/
def stepLine (excludeDocs : Bool) (s : ParseState) (line : Str) : ParseState :=
  if line.isEmpty then s
  else if "COMMIT|".toList.isPrefixOf line then
    let parts := splitOn1 '|' line
    if 4 ≤ parts.length then
      let commit := parts.getD 1 []
      let authorName := pyStrip (parts.getD 2 [])
      if should_exclude_author authorName then
        { s with commit := some commit, author := none }
      else
        { s with commit := some commit, author := some authorName,
                 date := pyDateYMD (parts.getD 3 []) }
    else s
  else
    match splitOn1 '\t' line with
    | [insF, delsF, filepath] =>
      if authorTruthy s.author then
        if insF = ['-'] || delsF = ['-'] then s
        else if should_exclude_file excludeDocs filepath then s
        else
          match pyInt insF, pyInt delsF with
          | some ins, some dels =>
            { s with
                stats := updD (s.author.getD []) AuthorStats.empty
                  (fun st => countLine st s.commit s.date ins dels filepath)
                  s.stats }
          | _, _ => s
      else s
    | _ => s

/-- The loop of `parse_git_log` over an already-split list of lines. -/
def parseLines (excludeDocs : Bool) (lines : List Str) : List (Str × AuthorStats) :=
  (lines.foldl (stepLine excludeDocs) ParseState.init).stats

/-- `parse_git_log(log_output)`: strip the raw text, split on
newlines, run the loop. -/
def parse_git_log (excludeDocs : Bool) (logOutput : Str) : List (Str × AuthorStats) :=
  parseLines excludeDocs (splitOn1 '\n' (pyStrip logOutput))

/-! ## Cross-repository aggregation (`analyze_repos`)

`get_git_log` is an external collaborator (a subprocess); a repository
is therefore modelled as its name together with the raw log text that
call would return. -/

/-- One element of `all_data`. -/
structure Row where
  author : Str
  repo : Str
  commits : Nat
  inserts : Int
  deletes : Int
  net : Int
deriving DecidableEq

/-- The four accumulators of `analyze_repos`. -/
structure GlobalAgg where
  all_data : List Row
  weekly_stats : List (Str × List (Nat × WeekBucket))
  ext_stats : List (Str × List (Str × Bucket))
  category_stats : List (Str × List (Str × Bucket))
deriving DecidableEq

/-- Empty global accumulators. -/
def GlobalAgg.init : GlobalAgg := ⟨[], [], [], []⟩

/-- The body of `for author, data in stats.items()` in
`analyze_repos`: emit a row and fold the author's weekly / extension /
category maps into the global ones, but only when the author has
nonzero insertions or deletions. -/
def foldAuthor (repoName : Str) (g : GlobalAgg) (kv : Str × AuthorStats) : GlobalAgg :=
  let author := kv.1
  let data := kv.2
  if data.inserts > 0 ∨ data.deletes > 0 then
    { all_data := g.all_data ++
        [⟨author, repoName, data.commits.card, data.inserts, data.deletes,
          data.inserts - data.deletes⟩],
      weekly_stats := data.weekly.foldl (fun m wk =>
        updD author [] (fun inner => updD wk.1 WeekBucket.zero
          (fun w => ⟨w.inserts + wk.2.inserts, w.deletes + wk.2.deletes,
                     w.commits ∪ wk.2.commits⟩) inner) m) g.weekly_stats,
      ext_stats := data.by_ext.foldl (fun m ek =>
        updD author [] (fun inner => updD ek.1 Bucket.zero
          (fun b => ⟨b.inserts + ek.2.inserts, b.deletes + ek.2.deletes⟩)
          inner) m) g.ext_stats,
      category_stats := data.by_category.foldl (fun m ck =>
        updD author [] (fun inner => updD ck.1 Bucket.zero
          (fun b => ⟨b.inserts + ck.2.inserts, b.deletes + ck.2.deletes⟩)
          inner) m) g.category_stats }
  else g

/-- One iteration of the repository loop of `analyze_repos`: an empty
log (`if not log_output: continue`) is skipped, otherwise the parsed
per-author stats are folded in. -/
def analyzeStep (excludeDocs : Bool) (g : GlobalAgg) (repo : Str × Str) : GlobalAgg :=
  if repo.2.isEmpty then g
  else (parse_git_log excludeDocs repo.2).foldl (foldAuthor repo.1) g

/-- `analyze_repos(repos, …)` over (name, raw log text) pairs. -/
def analyze_repos (excludeDocs : Bool) (repos : List (Str × Str)) : GlobalAgg :=
  repos.foldl (analyzeStep excludeDocs) GlobalAgg.init

/-! ## Extensional views

Two parse results are "the same" for the claims when they bind the
same authors to the same accumulators with the same *maps* — the
association lists may list keys in different orders.  The view
functions collapse every association list to its lookup function, so
view equality is exactly "same key set and same value at every
key". -/

/-- `AuthorStats` with its three inner maps replaced by lookups. -/
structure AView where
  commits : Finset Str
  inserts : Int
  deletes : Int
  weekly : Nat → Option WeekBucket
  by_ext : Str → Option Bucket
  by_category : Str → Option Bucket

/-- The view of one author accumulator. -/
def viewA (st : AuthorStats) : AView :=
  ⟨st.commits, st.inserts, st.deletes,
   fun k => findV k st.weekly, fun k => findV k st.by_ext,
   fun k => findV k st.by_category⟩

/-- The view of a whole parse result. -/
def viewS (m : List (Str × AuthorStats)) : Str → Option AView :=
  fun a => (findV a m).map viewA

/-- Nested-map view used for the `analyze_repos` accumulators. -/
def viewNest {κ β : Type} [DecidableEq κ] (m : List (Str × List (κ × β))) :
    Str → Option (κ → Option β) :=
  fun a => (findV a m).map fun inner => fun k => findV k inner

/-- The view of the global accumulators: the rows as a multiset (their
order reflects repository processing order; their collection does
not), the three nested maps as lookup functions. -/
structure GView where
  all_data : Multiset Row
  weekly_stats : Str → Option (Nat → Option WeekBucket)
  ext_stats : Str → Option (Str → Option Bucket)
  category_stats : Str → Option (Str → Option Bucket)

/-- View of a `GlobalAgg`. -/
def gview (g : GlobalAgg) : GView :=
  ⟨(g.all_data : Multiset Row), viewNest g.weekly_stats,
   viewNest g.ext_stats, viewNest g.category_stats⟩

/-! ## Derived definitions used by the claims -/

/-- Sum of a projection of the values of an association list. -/
def sumVals {α β : Type} (f : β → Int) (m : List (α × β)) : Int :=
  (m.map fun kv => f kv.2).sum

/-- An author's total insertions in a parse result, `0` when absent. -/
def authorIns (m : List (Str × AuthorStats)) (a : Str) : Int :=
  ((findV a m).map AuthorStats.inserts).getD 0

/-- An author's total deletions in a parse result, `0` when absent. -/
def authorDel (m : List (Str × AuthorStats)) (a : Str) : Int :=
  ((findV a m).map AuthorStats.deletes).getD 0

/-- The weekly bucket of author `a` at week `w`, if both exist. -/
def weekLook (m : List (Str × AuthorStats)) (a : Str) (w : Nat) : Option WeekBucket :=
  match findV a m with
  | none => none
  | some st => findV w st.weekly

/-- Union of all weekly commit sets of one author. -/
def unionWeekly (m : List (Nat × WeekBucket)) : Finset Str :=
  m.foldr (fun kv acc => kv.2.commits ∪ acc) ∅

/-- A line whose count fields, *when they parse at all*, are
non-negative.  True for every line real `git log --numstat` emits. -/
def nonNegLine (l : Str) : Bool :=
  match splitOn1 '\t' l with
  | [insF, delsF, _] =>
    (decide (0 ≤ (pyInt insF).getD 0)) && (decide (0 ≤ (pyInt delsF).getD 0))
  | _ => true

/-- A line that, if shaped like a numstat line, names a path with a
non-empty extension. -/
def extLine (l : Str) : Bool :=
  match splitOn1 '\t' l with
  | [_, _, fp] => !(splitextExtL (toLowerL fp)).isEmpty
  | _ => true

/-- A line that, if it is a well-formed `COMMIT|` marker, carries a
parseable `YYYY-MM-DD` date. -/
def datedLine (l : Str) : Bool :=
  if "COMMIT|".toList.isPrefixOf l then
    decide ((splitOn1 '|' l).length < 4)
      || (pyDateYMD ((splitOn1 '|' l).getD 3 [])).isSome
  else true

/-- A line that cannot introduce a countable author: either it is not
a `COMMIT|` marker, or the marker is malformed, or its trimmed author
matches the bot exclusion list. -/
def botOnlyLine (l : Str) : Bool :=
  !("COMMIT|".toList.isPrefixOf l)
    || decide ((splitOn1 '|' l).length < 4)
    || should_exclude_author (pyStrip ((splitOn1 '|' l).getD 2 []))

/-- The exclusion condition exactly as the specification words it:
(1) docs exclusion by extension; (2) the full path, the basename, or
some path suffix after a `/` matches an exclusion entry under
shell-glob semantics; (3) a directory-style entry (one ending in `/`
or `/*`), stripped of that trailing `/`/`*` decoration, occurs as a
literal substring of the lowercased path. -/
def shouldExcludeFileSpec (excludeDocs : Bool) (p : Str) : Prop :=
  (excludeDocs = true ∧ splitextExtL (toLowerL p) ∈ DOC_EXTENSIONS)
  ∨ (∃ pat ∈ EXCLUDE_PATTERNS,
      globMatch pat p = true ∨ globMatch pat (basenameL p) = true ∨
      ∃ x y, p = x ++ '/' :: y ∧ globMatch pat y = true)
  ∨ (∃ pat ∈ EXCLUDE_PATTERNS,
      (['/'] <:+ pat ∨ ['/', '*'] <:+ pat) ∧
      rstripSlashStar pat ≠ [] ∧ rstripSlashStar pat <:+: toLowerL p)

/-! ## View-level operations (for the reordering claim)

Each parser/aggregator update has a mirror image acting directly on
the extensional views; the mirror operations commute, which is what
makes aggregation order-independent. -/

/-- Defaultdict-style update of a lookup function. -/
def updF {κ β : Type} [DecidableEq κ] (k : κ) (d : β) (f : β → β)
    (m : κ → Option β) : κ → Option β :=
  fun j => if j = k then some (f ((m k).getD d)) else m j

/-- View of a fresh author entry. -/
def emptyAView : AView :=
  ⟨∅, 0, 0, fun _ => none, fun _ => none, fun _ => none⟩

/-- `countLine` acting on a view. -/
def countView (commit : Option Str) (date : Option Nat) (ins dels : Int)
    (filepath : Str) (av : AView) : AView :=
  let ext := splitextExtL (toLowerL filepath)
  { commits := insert (commit.getD []) av.commits,
    inserts := av.inserts + ins,
    deletes := av.deletes + dels,
    by_ext :=
      if ext.isEmpty then av.by_ext
      else updF ext Bucket.zero
        (fun b => ⟨b.inserts + ins, b.deletes + dels⟩) av.by_ext,
    by_category :=
      updF (get_file_category filepath) Bucket.zero
        (fun b => ⟨b.inserts + ins, b.deletes + dels⟩) av.by_category,
    weekly :=
      match date with
      | none => av.weekly
      | some dt =>
        updF (weekStart dt) WeekBucket.zero
          (fun w => ⟨w.inserts + ins, w.deletes + dels,
                     insert (commit.getD []) w.commits⟩) av.weekly }

/-- One counted line acting on the whole view. -/
def lineView (a : Str) (c : Option Str) (d : Option Nat) (ins dels : Int)
    (fp : Str) (v : Str → Option AView) : Str → Option AView :=
  fun a2 => if a2 = a then
              some (countView c d ins dels fp ((v a).getD emptyAView))
            else v a2

/-- Whether a body line is counted under the given cursor values, and
with which author, counts and path.  (`countedLine` only inspects the
author cursor, so a dummy state carries it.) -/
def lineParams (excludeDocs : Bool) (author commit : Option Str)
    (date : Option Nat) (line : Str) : Option (Str × Int × Int × Str) :=
  if countedLine excludeDocs ⟨[], author, commit, date⟩ line then
    match splitOn1 '\t' line with
    | [insF, delsF, fp] =>
      match pyInt insF, pyInt delsF with
      | some i, some j => some (author.getD [], i, j, fp)
      | _, _ => none
    | _ => none
  else none

/-- One body line acting on the view: `lineView` when counted,
identity otherwise. -/
def elemView (excludeDocs : Bool) (author commit : Option Str)
    (date : Option Nat) (v : Str → Option AView) (line : Str) :
    Str → Option AView :=
  match lineParams excludeDocs author commit date line with
  | some q => lineView q.1 commit date q.2.1 q.2.2.1 q.2.2.2 v
  | none => v

/-- A whole commit body acting on the view. -/
def bodyApply (excludeDocs : Bool) (author commit : Option Str)
    (date : Option Nat) (body : List Str) (v : Str → Option AView) :
    Str → Option AView :=
  body.foldl (elemView excludeDocs author commit date) v

/-- A whole commit group (marker line plus body) acting on the view:
a suppressed author contributes nothing. -/
def groupApplyV (excludeDocs : Bool) (g : Str × List Str)
    (v : Str → Option AView) : Str → Option AView :=
  let parts := splitOn1 '|' g.1
  let a := pyStrip (parts.getD 2 [])
  if should_exclude_author a then v
  else bodyApply excludeDocs (some a) (some (parts.getD 1 []))
        (pyDateYMD (parts.getD 3 [])) g.2 v

/-- A commit group: a well-formed `COMMIT|` marker line whose body
contains no marker lines. -/
def wfGroup (g : Str × List Str) : Bool :=
  "COMMIT|".toList.isPrefixOf g.1
    && decide (4 ≤ (splitOn1 '|' g.1).length)
    && g.2.all fun l => !("COMMIT|".toList.isPrefixOf l)

/-- Flatten commit groups back into a list of log lines. -/
def joinGroups (gs : List (Str × List Str)) : List Str :=
  (gs.map fun g => g.1 :: g.2).flatten

/-- `foldAuthor` acting on the global view. -/
def foldAuthorV (repoName : Str) (v : GView) (kv : Str × AuthorStats) : GView :=
  let author := kv.1
  let data := kv.2
  if data.inserts > 0 ∨ data.deletes > 0 then
    { all_data := v.all_data +
        {⟨author, repoName, data.commits.card, data.inserts, data.deletes,
          data.inserts - data.deletes⟩},
      weekly_stats := data.weekly.foldl (fun m wk =>
        updF author (fun _ => none) (updF wk.1 WeekBucket.zero
          (fun w => ⟨w.inserts + wk.2.inserts, w.deletes + wk.2.deletes,
                     w.commits ∪ wk.2.commits⟩)) m) v.weekly_stats,
      ext_stats := data.by_ext.foldl (fun m ek =>
        updF author (fun _ => none) (updF ek.1 Bucket.zero
          (fun b => ⟨b.inserts + ek.2.inserts, b.deletes + ek.2.deletes⟩))
          m) v.ext_stats,
      category_stats := data.by_category.foldl (fun m ck =>
        updF author (fun _ => none) (updF ck.1 Bucket.zero
          (fun b => ⟨b.inserts + ck.2.inserts, b.deletes + ck.2.deletes⟩))
          m) v.category_stats }
  else v

/-- `analyzeStep` acting on the global view. -/
def analyzeStepV (excludeDocs : Bool) (v : GView) (repo : Str × Str) : GView :=
  if repo.2.isEmpty then v
  else (parse_git_log excludeDocs repo.2).foldl (foldAuthorV repo.1) v

/-! ## Association-list lemmas -/

theorem findV_updD {α β : Type} [DecidableEq α] (k j : α) (d : β) (f : β → β)
    (m : List (α × β)) :
    findV j (updD k d f m) =
      if j = k then some (f ((findV k m).getD d)) else findV j m := by
  induction m with
  | nil =>
    by_cases hj : j = k <;> simp [updD, findV, hj]
  | cons kv rest ih =>
    by_cases hk : k = kv.1
    · by_cases hj : j = kv.1 <;> simp [updD, findV, hk, hj, hk ▸ hj]
    · by_cases hj : j = kv.1
      · have : j ≠ k := fun h => hk (h ▸ hj)
        simp [updD, findV, hk, hj, this]
        rw [if_neg (fun h => hk h.symm)]
      · simp [updD, findV, hk, hj, ih]

theorem sumVals_updD {α β : Type} [DecidableEq α] (k : α) (d : β) (g : β → β)
    (f : β → Int) (m : List (α × β)) (h0 : f d = 0) :
    sumVals f (updD k d g m) =
      sumVals f m + (f (g ((findV k m).getD d)) - f ((findV k m).getD d)) := by
  induction m with
  | nil => simp [updD, findV, sumVals, h0]
  | cons kv rest ih =>
    by_cases hk : k = kv.1
    · simp [updD, findV, hk, sumVals]
      ring
    · simp only [updD, findV, if_neg hk, if_neg (fun h => hk h)]
      simp only [sumVals, List.map_cons, List.sum_cons] at ih ⊢
      rw [ih]
      ring

/-- Generic `foldl` invariant preservation. -/
theorem foldlRec {α β : Type} (f : β → α → β) (P : β → Prop) :
    ∀ (l : List α) (b : β), P b → (∀ b' a, a ∈ l → P b' → P (f b' a)) →
      P (l.foldl f b) := by
  intro l
  induction l with
  | nil => intro b hb _; exact hb
  | cons x xs ih =>
    intro b hb hstep
    exact ih (f b x) (hstep b x (List.mem_cons_self x xs) hb)
      fun b' a ha hb' => hstep b' a (List.mem_cons_of_mem x ha) hb'

/-! ## Characterisation of one parser step -/

theorem stepLine_skip (excludeDocs : Bool) (s : ParseState) (line : Str)
    (hnc : "COMMIT|".toList.isPrefixOf line = false)
    (hcount : countedLine excludeDocs s line = false) :
    stepLine excludeDocs s line = s := by
  have hnc' : (['C', 'O', 'M', 'M', 'I', 'T', '|'] : Str).isPrefixOf line = false := hnc
  have hnp : ¬ ((['C', 'O', 'M', 'M', 'I', 'T', '|'] : Str) <+: line) := by
    simp [← List.isPrefixOf_iff_prefix, hnc']
  by_cases hemp : line = []
  · simp [stepLine, hemp]
  · unfold stepLine
    rw [if_neg (by simpa using hemp), if_neg (by simpa using hnp)]
    unfold countedLine at hcount
    split
    · rename_i insF delsF fp hsp
      rw [hsp] at hcount
      simp only [decide_eq_true_eq, Bool.or_eq_true, Bool.and_eq_false_iff,
        Bool.not_eq_false'] at hcount ⊢
      by_cases hauth : authorTruthy s.author = true
      · rw [if_pos hauth]
        by_cases hdash : insF = ['-'] ∨ delsF = ['-']
        · rw [if_pos hdash]
        · rw [if_neg hdash]
          by_cases hexcl : should_exclude_file excludeDocs fp = true
          · rw [if_pos hexcl]
          · rw [if_neg hexcl]
            cases hi : pyInt insF <;> cases hj : pyInt delsF <;> simp_all
      · rw [if_neg hauth]
    · rfl

theorem stepLine_count (excludeDocs : Bool) (s : ParseState) (line : Str)
    (insF delsF fp : Str) (i j : Int)
    (hnc : "COMMIT|".toList.isPrefixOf line = false)
    (hsp : splitOn1 '\t' line = [insF, delsF, fp])
    (hauth : authorTruthy s.author = true)
    (hdash : ¬(insF = ['-'] ∨ delsF = ['-']))
    (hexcl : should_exclude_file excludeDocs fp = false)
    (hi : pyInt insF = some i) (hj : pyInt delsF = some j) :
    stepLine excludeDocs s line =
      { s with stats := updD (s.author.getD []) AuthorStats.empty
                          (fun st => countLine st s.commit s.date i j fp)
                          s.stats } := by
  have hnc' : (['C', 'O', 'M', 'M', 'I', 'T', '|'] : Str).isPrefixOf line = false := hnc
  have hnp : ¬ ((['C', 'O', 'M', 'M', 'I', 'T', '|'] : Str) <+: line) := by
    simp [← List.isPrefixOf_iff_prefix, hnc']
  have hne : line ≠ [] := by
    intro h; rw [h] at hsp; simp [splitOn1] at hsp
  unfold stepLine
  rw [if_neg (by simpa using hne), if_neg (by simpa using hnp), hsp]
  simp only [decide_eq_true_eq, Bool.or_eq_true]
  rw [if_pos hauth, if_neg hdash, if_neg (by simp [hexcl]), hi, hj]

theorem stepLine_commit_short (excludeDocs : Bool) (s : ParseState) (line : Str)
    (hpre : "COMMIT|".toList.isPrefixOf line = true)
    (hlen : (splitOn1 '|' line).length < 4) :
    stepLine excludeDocs s line = s := by
  have hp : ("COMMIT|".toList <+: line) := List.isPrefixOf_iff_prefix.mp hpre
  have hne : line ≠ [] := by
    intro h; rw [h] at hpre; exact absurd hpre (by decide)
  unfold stepLine
  rw [if_neg (by simpa using hne), if_pos (by simpa using hp),
    if_neg (by simpa using Nat.not_le.mpr hlen)]

theorem stepLine_commit_excl (excludeDocs : Bool) (s : ParseState) (line : Str)
    (hpre : "COMMIT|".toList.isPrefixOf line = true)
    (hlen : 4 ≤ (splitOn1 '|' line).length)
    (hexcl : should_exclude_author (pyStrip ((splitOn1 '|' line).getD 2 [])) = true) :
    stepLine excludeDocs s line =
      { s with commit := some ((splitOn1 '|' line).getD 1 []), author := none } := by
  have hp : ("COMMIT|".toList <+: line) := List.isPrefixOf_iff_prefix.mp hpre
  have hne : line ≠ [] := by
    intro h; rw [h] at hpre; exact absurd hpre (by decide)
  unfold stepLine
  rw [if_neg (by simpa using hne), if_pos (by simpa using hp), if_pos (by simpa using hlen)]
  simp only []
  rw [if_pos hexcl]

theorem stepLine_commit_ok (excludeDocs : Bool) (s : ParseState) (line : Str)
    (hpre : "COMMIT|".toList.isPrefixOf line = true)
    (hlen : 4 ≤ (splitOn1 '|' line).length)
    (hexcl : should_exclude_author (pyStrip ((splitOn1 '|' line).getD 2 [])) = false) :
    stepLine excludeDocs s line =
      { s with commit := some ((splitOn1 '|' line).getD 1 []),
               author := some (pyStrip ((splitOn1 '|' line).getD 2 [])),
               date := pyDateYMD ((splitOn1 '|' line).getD 3 []) } := by
  have hp : ("COMMIT|".toList <+: line) := List.isPrefixOf_iff_prefix.mp hpre
  have hne : line ≠ [] := by
    intro h; rw [h] at hpre; exact absurd hpre (by decide)
  unfold stepLine
  rw [if_neg (by simpa using hne), if_pos (by simpa using hp), if_pos (by simpa using hlen)]
  simp only []
  rw [if_neg (by intro h; rw [hexcl] at h; exact absurd h (by decide))]

theorem countedLine_spec (excludeDocs : Bool) (s : ParseState) (line : Str)
    (h : countedLine excludeDocs s line = true) :
    ∃ insF delsF fp i j, splitOn1 '\t' line = [insF, delsF, fp] ∧
      authorTruthy s.author = true ∧ ¬(insF = ['-'] ∨ delsF = ['-']) ∧
      should_exclude_file excludeDocs fp = false ∧
      pyInt insF = some i ∧ pyInt delsF = some j := by
  unfold countedLine at h
  split at h
  · rename_i insF delsF fp hsp
    simp only [Bool.and_eq_true, Bool.not_eq_true', Bool.or_eq_false_iff,
      decide_eq_false_iff_not, Option.isSome_iff_exists] at h
    obtain ⟨⟨⟨⟨hauth, hd1, hd2⟩, hexcl⟩, i, hi⟩, j, hj⟩ := h
    exact ⟨insF, delsF, fp, i, j, hsp, hauth,
      fun hd => hd.elim hd1 hd2, hexcl, hi, hj⟩
  · exact absurd h (by simp)

theorem stepLine_cases (excludeDocs : Bool) (s : ParseState) (line : Str) :
    (stepLine excludeDocs s line).stats = s.stats ∨
    ∃ insF delsF fp i j, splitOn1 '\t' line = [insF, delsF, fp] ∧
      "COMMIT|".toList.isPrefixOf line = false ∧
      authorTruthy s.author = true ∧ ¬(insF = ['-'] ∨ delsF = ['-']) ∧
      should_exclude_file excludeDocs fp = false ∧
      pyInt insF = some i ∧ pyInt delsF = some j ∧
      (stepLine excludeDocs s line).stats =
        updD (s.author.getD []) AuthorStats.empty
          (fun st => countLine st s.commit s.date i j fp) s.stats := by
  by_cases hpre : "COMMIT|".toList.isPrefixOf line = true
  · by_cases hlen : 4 ≤ (splitOn1 '|' line).length
    · by_cases hexcl :
        should_exclude_author (pyStrip ((splitOn1 '|' line).getD 2 [])) = true
      · left; rw [stepLine_commit_excl excludeDocs s line hpre hlen hexcl]
      · left
        rw [stepLine_commit_ok excludeDocs s line hpre hlen
          (Bool.eq_false_iff.mpr hexcl)]
    · left
      rw [stepLine_commit_short excludeDocs s line hpre (Nat.lt_of_not_le hlen)]
  · have hpre' : "COMMIT|".toList.isPrefixOf line = false :=
      Bool.eq_false_iff.mpr hpre
    by_cases hc : countedLine excludeDocs s line = true
    · obtain ⟨insF, delsF, fp, i, j, hsp, hauth, hdash, hexcl, hi, hj⟩ :=
        countedLine_spec excludeDocs s line hc
      right
      exact ⟨insF, delsF, fp, i, j, hsp, hpre', hauth, hdash, hexcl, hi, hj,
        by rw [stepLine_count excludeDocs s line insF delsF fp i j hpre' hsp
          hauth hdash hexcl hi hj]⟩
    · left
      rw [stepLine_skip excludeDocs s line hpre' (Bool.eq_false_iff.mpr hc)]

/-- C9: skipping is atomic — a non-marker line that is not counted
(wrong field count, binary `-` marker, suppressed/unset author,
excluded path, or a count field `int()` rejects) leaves the whole
parser state, in particular the result mapping, unchanged; and every
author entry the parser ever creates has a non-empty commit set, so no
all-zero entry is ever created and commit hashes enter only together
with a counted line. -/
theorem c9_skip_atomic :
    (∀ (excludeDocs : Bool) (s : ParseState) (line : Str),
      "COMMIT|".toList.isPrefixOf line = false →
      countedLine excludeDocs s line = false →
      stepLine excludeDocs s line = s)
    ∧ (∀ (excludeDocs : Bool) (lines : List Str) (a : Str) (st : AuthorStats),
      findV a (parseLines excludeDocs lines) = some st → st.commits.Nonempty) := by
  constructor
  · exact fun ed s line h1 h2 => stepLine_skip ed s line h1 h2
  · intro ed lines a st hfind
    have key := foldlRec (stepLine ed)
      (fun s => ∀ a' st', findV a' s.stats = some st' → st'.commits.Nonempty)
      lines ParseState.init
      (by intro a' st' h; simp [ParseState.init, findV] at h)
      (by
        intro s' l _ hP a' st' hfind'
        rcases stepLine_cases ed s' l with hcase |
          ⟨insF, delsF, fp, i, j, _, _, _, _, _, _, _, heq⟩
        · rw [hcase] at hfind'; exact hP a' st' hfind'
        · rw [heq, findV_updD] at hfind'
          by_cases ha : a' = s'.author.getD []
          · rw [if_pos ha] at hfind'
            cases hfind'
            exact Finset.insert_nonempty _ _
          · rw [if_neg ha] at hfind'; exact hP a' st' hfind')
    exact key a st hfind

/-- Witness for C9 at a concrete binary-marker line. -/
theorem c9_skip_atomic_witness :
    ("COMMIT|".toList.isPrefixOf "-\t-\tbin.png".toList = false)
    ∧ (countedLine false ⟨[], some "Alice".toList, some "a1".toList, none⟩
        "-\t-\tbin.png".toList = false)
    ∧ stepLine false ⟨[], some "Alice".toList, some "a1".toList, none⟩
        "-\t-\tbin.png".toList =
        ⟨[], some "Alice".toList, some "a1".toList, none⟩ :=
  ⟨by decide, by decide,
   c9_skip_atomic.1 false ⟨[], some "Alice".toList, some "a1".toList, none⟩
     "-\t-\tbin.png".toList (by decide) (by decide)⟩

theorem body_noop (excludeDocs : Bool) : ∀ (body : List Str) (s : ParseState),
    s.author = none →
    (body.all fun l => !("COMMIT|".toList.isPrefixOf l)) = true →
    body.foldl (stepLine excludeDocs) s = s := by
  intro body
  induction body with
  | nil => intro s _ _; rfl
  | cons l rest ih =>
    intro s hauth hall
    simp only [List.all_cons, Bool.and_eq_true, Bool.not_eq_true'] at hall
    have h1 : stepLine excludeDocs s l = s :=
      stepLine_skip excludeDocs s l hall.1 (by
        unfold countedLine
        split
        · simp [authorTruthy, hauth]
        · rfl)
    rw [List.foldl_cons, h1]
    exact ih s hauth hall.2

/-- C6: a well-formed `COMMIT|` line whose trimmed author matches the
bot exclusion list clears `current_author` while leaving the result
mapping untouched; numstat lines seen while the author is cleared
change nothing until the next marker line; and a log none of whose
well-formed marker lines carries a non-excluded author parses to the
empty mapping (Scenario B). -/
theorem c6_bot_suppression :
    (∀ (excludeDocs : Bool) (lines : List Str),
      lines.all botOnlyLine = true → parseLines excludeDocs lines = [])
    ∧ (∀ (excludeDocs : Bool) (s : ParseState) (line : Str),
      "COMMIT|".toList.isPrefixOf line = true →
      4 ≤ (splitOn1 '|' line).length →
      should_exclude_author (pyStrip ((splitOn1 '|' line).getD 2 [])) = true →
      (stepLine excludeDocs s line).author = none ∧
      (stepLine excludeDocs s line).stats = s.stats)
    ∧ (∀ (excludeDocs : Bool) (s : ParseState) (body : List Str),
      s.author = none →
      (body.all fun l => !("COMMIT|".toList.isPrefixOf l)) = true →
      body.foldl (stepLine excludeDocs) s = s) := by
  refine ⟨?_, ?_, ?_⟩
  · intro ed lines hall
    have key := foldlRec (stepLine ed)
      (fun s => s.stats = [] ∧ s.author = none)
      lines ParseState.init ⟨rfl, rfl⟩
      (by
        intro s' l hl hP
        have hbot : botOnlyLine l = true := by
          have := List.all_eq_true.mp hall l hl
          exact this
        by_cases hpre : "COMMIT|".toList.isPrefixOf l = true
        · by_cases hlen : 4 ≤ (splitOn1 '|' l).length
          · have hexcl :
              should_exclude_author (pyStrip ((splitOn1 '|' l).getD 2 [])) = true := by
              unfold botOnlyLine at hbot
              rw [hpre] at hbot
              simpa [Nat.not_lt.mpr hlen] using hbot
            rw [stepLine_commit_excl ed s' l hpre hlen hexcl]
            exact ⟨hP.1, rfl⟩
          · rw [stepLine_commit_short ed s' l hpre (Nat.lt_of_not_le hlen)]
            exact hP
        · have hpre' : "COMMIT|".toList.isPrefixOf l = false :=
            Bool.eq_false_iff.mpr hpre
          rw [stepLine_skip ed s' l hpre' (by
            unfold countedLine
            split
            · simp [authorTruthy, hP.2]
            · rfl)]
          exact hP)
    exact key.1
  · intro ed s line hpre hlen hexcl
    rw [stepLine_commit_excl ed s line hpre hlen hexcl]
    exact ⟨rfl, rfl⟩
  · exact fun ed s body h1 h2 => body_noop ed body s h1 h2

/-- Witness for C6: Scenario B, a log whose only commit is by
`dependabot[bot]`, parses to the empty mapping. -/
theorem c6_bot_suppression_witness :
    (["COMMIT|a1|dependabot[bot]|2025-01-06".toList,
      "5\t2\tsrc/app.ts".toList].all botOnlyLine = true)
    ∧ parseLines false
        ["COMMIT|a1|dependabot[bot]|2025-01-06".toList,
         "5\t2\tsrc/app.ts".toList] = [] :=
  ⟨by decide,
   c6_bot_suppression.1 false
     ["COMMIT|a1|dependabot[bot]|2025-01-06".toList,
      "5\t2\tsrc/app.ts".toList] (by decide)⟩

theorem pyDateYMD_pos (s : Str) (n : Nat) (h : pyDateYMD s = some n) : 1 ≤ n := by
  unfold pyDateYMD at h
  split at h
  · rename_i ys ms ds _
    simp only [] at h
    split at h
    · split at h
      · rename_i hguard
        simp only [Bool.and_eq_true, decide_eq_true_eq] at hguard
        cases h
        unfold toOrdinalYMD
        omega
      · exact absurd h (by simp)
    · exact absurd h (by simp)
  · exact absurd h (by simp)

theorem weekStart_monday (n : Nat) (h : 1 ≤ n) :
    pyWeekday (weekStart n) = 0 ∧ weekStart n ≤ n ∧ n < weekStart n + 7 := by
  unfold pyWeekday weekStart pyWeekday
  omega

/-- C8: a counted numstat line of a commit whose date did not parse
(`current_date = None`) updates the author's commit set, totals,
extension and category buckets exactly as usual, but leaves every
weekly bucket of every author untouched. -/
theorem c8_missing_date :
    ∀ (excludeDocs : Bool) (s : ParseState) (line insF delsF fp : Str) (i j : Int),
      "COMMIT|".toList.isPrefixOf line = false →
      splitOn1 '\t' line = [insF, delsF, fp] →
      authorTruthy s.author = true →
      ¬(insF = ['-'] ∨ delsF = ['-']) →
      should_exclude_file excludeDocs fp = false →
      pyInt insF = some i → pyInt delsF = some j →
      s.date = none →
      (stepLine excludeDocs s line).stats =
        updD (s.author.getD []) AuthorStats.empty
          (fun st => countLine st s.commit none i j fp) s.stats
      ∧ (∀ st : AuthorStats,
          (countLine st s.commit none i j fp).weekly = st.weekly ∧
          (countLine st s.commit none i j fp).inserts = st.inserts + i ∧
          (countLine st s.commit none i j fp).deletes = st.deletes + j ∧
          (countLine st s.commit none i j fp).commits =
            insert (s.commit.getD []) st.commits)
      ∧ (∀ (a : Str) (w : Nat),
          weekLook (stepLine excludeDocs s line).stats a w = weekLook s.stats a w) := by
  intro ed s line insF delsF fp i j hnc hsp hauth hdash hexcl hi hj hdate
  have hstep := stepLine_count ed s line insF delsF fp i j hnc hsp hauth hdash hexcl hi hj
  rw [hdate] at hstep
  refine ⟨by rw [hstep], fun st => ⟨rfl, rfl, rfl, rfl⟩, ?_⟩
  intro a w
  rw [hstep]
  unfold weekLook
  simp only [findV_updD]
  by_cases ha : a = s.author.getD []
  · subst ha
    rw [if_pos rfl]
    cases hfind : findV (s.author.getD []) s.stats with
    | none => simp [hfind, countLine, AuthorStats.empty, findV]
    | some v => simp [hfind, countLine]
  · rw [if_neg ha]

/-- Witness for C8 at a concrete undated counted line. -/
theorem c8_missing_date_witness :
    (pyInt "5".toList = some 5) ∧ (pyInt "2".toList = some 2)
    ∧ (stepLine false ⟨[], some "Alice".toList, some "a1".toList, none⟩
        "5\t2\tsrc/app.ts".toList).stats =
        updD ("Alice".toList) AuthorStats.empty
          (fun st => countLine st (some "a1".toList) none 5 2 "src/app.ts".toList) []
    ∧ (countLine AuthorStats.empty (some "a1".toList) none 5 2
        "src/app.ts".toList).weekly = [] :=
  ⟨by decide, by decide,
   (c8_missing_date false ⟨[], some "Alice".toList, some "a1".toList, none⟩
      "5\t2\tsrc/app.ts".toList "5".toList "2".toList "src/app.ts".toList 5 2
      (by decide) (by decide) (by decide) (by decide) (by decide)
      (by decide) (by decide) rfl).1,
   ((c8_missing_date false ⟨[], some "Alice".toList, some "a1".toList, none⟩
      "5\t2\tsrc/app.ts".toList "5".toList "2".toList "src/app.ts".toList 5 2
      (by decide) (by decide) (by decide) (by decide) (by decide)
      (by decide) (by decide) rfl).2.1 AuthorStats.empty).1⟩

/-- C7: a counted numstat line of a dated commit adds its counts and
the commit hash to the weekly bucket keyed by
`commitDate - weekday(commitDate)`, and for every date produced by
the `YYYY-MM-DD` parse that key is the Monday (weekday 0) on or
before the commit date. -/
theorem c7_week_bucket :
    ∀ (excludeDocs : Bool) (s : ParseState) (line insF delsF fp ds : Str)
      (i j : Int) (dt : Nat),
      "COMMIT|".toList.isPrefixOf line = false →
      splitOn1 '\t' line = [insF, delsF, fp] →
      authorTruthy s.author = true →
      ¬(insF = ['-'] ∨ delsF = ['-']) →
      should_exclude_file excludeDocs fp = false →
      pyInt insF = some i → pyInt delsF = some j →
      s.date = some dt → pyDateYMD ds = some dt →
      (stepLine excludeDocs s line).stats =
        updD (s.author.getD []) AuthorStats.empty
          (fun st => countLine st s.commit (some dt) i j fp) s.stats
      ∧ (∀ st : AuthorStats,
          (countLine st s.commit (some dt) i j fp).weekly =
            updD (weekStart dt) WeekBucket.zero
              (fun w => ⟨w.inserts + i, w.deletes + j,
                         insert (s.commit.getD []) w.commits⟩) st.weekly)
      ∧ pyWeekday (weekStart dt) = 0 ∧ weekStart dt ≤ dt ∧ dt < weekStart dt + 7 := by
  intro ed s line insF delsF fp ds i j dt hnc hsp hauth hdash hexcl hi hj hdate hds
  have hstep := stepLine_count ed s line insF delsF fp i j hnc hsp hauth hdash hexcl hi hj
  rw [hdate] at hstep
  have hmon := weekStart_monday dt (pyDateYMD_pos ds dt hds)
  exact ⟨by rw [hstep], fun st => rfl, hmon.1, hmon.2.1, hmon.2.2⟩

/-- Witness for C7: commit dated 2025-01-08 (a Wednesday, ordinal
739259) buckets into Monday 2025-01-06 (ordinal 739257). -/
theorem c7_week_bucket_witness :
    (pyDateYMD "2025-01-08".toList = some 739259)
    ∧ (stepLine false ⟨[], some "Alice".toList, some "a1".toList, some 739259⟩
        "5\t2\tsrc/app.ts".toList).stats =
        updD ("Alice".toList) AuthorStats.empty
          (fun st => countLine st (some "a1".toList) (some 739259) 5 2
            "src/app.ts".toList) []
    ∧ pyWeekday (weekStart 739259) = 0 ∧ weekStart 739259 = 739257 :=
  ⟨by decide,
   (c7_week_bucket false ⟨[], some "Alice".toList, some "a1".toList, some 739259⟩
      "5\t2\tsrc/app.ts".toList "5".toList "2".toList "src/app.ts".toList
      "2025-01-08".toList 5 2 739259
      (by decide) (by decide) (by decide) (by decide) (by decide)
      (by decide) (by decide) rfl (by decide)).1,
   (c7_week_bucket false ⟨[], some "Alice".toList, some "a1".toList, some 739259⟩
      "5\t2\tsrc/app.ts".toList "5".toList "2".toList "src/app.ts".toList
      "2025-01-08".toList 5 2 739259
      (by decide) (by decide) (by decide) (by decide) (by decide)
      (by decide) (by decide) rfl (by decide)).2.2.1,
   by decide⟩

/-- C4 (amended): a numstat line is counted only when both count
fields are accepted by Python `int` (which also accepts signed
values); provided every count that parses is non-negative — true of
all real `git log --numstat` output — every author's running totals
are monotonically non-decreasing as the parser consumes lines. -/
theorem c4_parse_monotone :
    ∀ (excludeDocs : Bool) (s : ParseState) (lines : List Str) (a : Str),
      lines.all nonNegLine = true →
      authorIns s.stats a ≤ authorIns ((lines.foldl (stepLine excludeDocs) s).stats) a
      ∧ authorDel s.stats a ≤ authorDel ((lines.foldl (stepLine excludeDocs) s).stats) a := by
  intro ed s lines a hall
  refine foldlRec (stepLine ed)
    (fun s' => authorIns s.stats a ≤ authorIns s'.stats a ∧
               authorDel s.stats a ≤ authorDel s'.stats a)
    lines s ⟨le_refl _, le_refl _⟩ ?_
  intro s' l hl hP
  rcases stepLine_cases ed s' l with hcase |
    ⟨insF, delsF, fp, i, j, hsp, _, _, _, _, hi, hj, heq⟩
  · rw [hcase]; exact hP
  · have hnn := List.all_eq_true.mp hall l hl
    unfold nonNegLine at hnn
    rw [hsp] at hnn
    simp only [hi, hj, Option.getD_some, Bool.and_eq_true, decide_eq_true_eq] at hnn
    constructor
    · refine le_trans hP.1 ?_
      unfold authorIns
      rw [heq, findV_updD]
      by_cases ha : a = s'.author.getD []
      · subst ha
        rw [if_pos rfl]
        cases hfind : findV (s'.author.getD []) s'.stats with
        | none => simp [hfind, countLine, AuthorStats.empty]; omega
        | some v => simp [hfind, countLine]; omega
      · rw [if_neg ha]
    · refine le_trans hP.2 ?_
      unfold authorDel
      rw [heq, findV_updD]
      by_cases ha : a = s'.author.getD []
      · subst ha
        rw [if_pos rfl]
        cases hfind : findV (s'.author.getD []) s'.stats with
        | none => simp [hfind, countLine, AuthorStats.empty]; omega
        | some v => simp [hfind, countLine]; omega
      · rw [if_neg ha]

/-- Witness for the amended C4 on Scenario A's log. -/
theorem c4_parse_monotone_witness :
    (["COMMIT|a1|Alice|2025-01-06".toList, "5\t2\tsrc/app.ts".toList].all
      nonNegLine = true)
    ∧ authorIns ParseState.init.stats "Alice".toList ≤
        authorIns ((["COMMIT|a1|Alice|2025-01-06".toList,
          "5\t2\tsrc/app.ts".toList].foldl (stepLine false) ParseState.init).stats)
          "Alice".toList :=
  ⟨by decide,
   (c4_parse_monotone false ParseState.init
     ["COMMIT|a1|Alice|2025-01-06".toList, "5\t2\tsrc/app.ts".toList]
     "Alice".toList (by decide)).1⟩

/-- Counterexample to C4 as stated: the field `-3` is not skipped —
Python `int` parses it — so Alice's total drops from 5 to 2 when the
line `-3⟨tab⟩0⟨tab⟩b.py` is consumed: totals are not monotone and a
negative count field is counted, not skipped. -/
theorem c4_counterexample :
    ¬ (∀ (l1 l2 : List Str) (a : Str),
        authorIns (parseLines false l1) a ≤
          authorIns (parseLines false (l1 ++ l2)) a) := by
  intro h
  exact absurd
    (h ["COMMIT|a1|Alice|2025-01-06".toList, "5\t0\ta.py".toList]
       ["-3\t0\tb.py".toList] "Alice".toList)
    (by decide)

/-- C2 (amended): a counted line's insertions/deletions go to the
bucket keyed by the lowercase extension only when that extension is
non-empty (`if ext:` in the source); a counted line whose path has no
extension leaves the extension map untouched, and consequently no
extension bucket keyed by the empty string ever exists. -/
theorem c2_extension_bucket :
    (∀ (excludeDocs : Bool) (s : ParseState) (line insF delsF fp : Str) (i j : Int),
      "COMMIT|".toList.isPrefixOf line = false →
      splitOn1 '\t' line = [insF, delsF, fp] →
      authorTruthy s.author = true →
      ¬(insF = ['-'] ∨ delsF = ['-']) →
      should_exclude_file excludeDocs fp = false →
      pyInt insF = some i → pyInt delsF = some j →
      (stepLine excludeDocs s line).stats =
        updD (s.author.getD []) AuthorStats.empty
          (fun st => countLine st s.commit s.date i j fp) s.stats
      ∧ ∀ st : AuthorStats,
          (countLine st s.commit s.date i j fp).by_ext =
            (if (splitextExtL (toLowerL fp)).isEmpty then st.by_ext
             else updD (splitextExtL (toLowerL fp)) Bucket.zero
               (fun b => ⟨b.inserts + i, b.deletes + j⟩) st.by_ext))
    ∧ (∀ (excludeDocs : Bool) (lines : List Str) (a : Str) (st : AuthorStats)
        (e : Str) (b : Bucket),
        findV a (parseLines excludeDocs lines) = some st →
        findV e st.by_ext = some b → e ≠ []) := by
  constructor
  · intro ed s line insF delsF fp i j hnc hsp hauth hdash hexcl hi hj
    exact ⟨by
      rw [stepLine_count ed s line insF delsF fp i j hnc hsp hauth hdash hexcl hi hj],
      fun st => rfl⟩
  · intro ed lines a st e b hfind hext
    have key := foldlRec (stepLine ed)
      (fun s => ∀ a' st', findV a' s.stats = some st' →
        ∀ e' b', findV e' st'.by_ext = some b' → e' ≠ [])
      lines ParseState.init
      (by intro a' st' h; simp [ParseState.init, findV] at h)
      (by
        intro s' l _ hP a' st' hfind' e' b' hext'
        rcases stepLine_cases ed s' l with hcase |
          ⟨insF, delsF, fp, i, j, _, _, _, _, _, _, _, heq⟩
        · rw [hcase] at hfind'; exact hP a' st' hfind' e' b' hext'
        · rw [heq, findV_updD] at hfind'
          by_cases ha : a' = s'.author.getD []
          · rw [if_pos ha] at hfind'
            cases hfind'
            revert hext'
            unfold countLine
            simp only []
            by_cases hext0 : (splitextExtL (toLowerL fp)).isEmpty = true
            · rw [if_pos hext0]
              intro hext'
              cases hfindv : findV (s'.author.getD []) s'.stats with
              | none =>
                rw [hfindv] at hext'
                simp [AuthorStats.empty, findV] at hext'
              | some v =>
                rw [hfindv] at hext'
                exact hP _ v hfindv e' b' hext'
            · rw [if_neg hext0]
              intro hext'
              rw [findV_updD] at hext'
              by_cases he : e' = splitextExtL (toLowerL fp)
              · subst he
                exact List.isEmpty_eq_false.mp (Bool.eq_false_iff.mpr hext0)
              · rw [if_neg he] at hext'
                cases hfindv : findV (s'.author.getD []) s'.stats with
                | none =>
                  rw [hfindv] at hext'
                  simp [AuthorStats.empty, findV] at hext'
                | some v =>
                  rw [hfindv] at hext'
                  exact hP _ v hfindv e' b' hext'
          · rw [if_neg ha] at hfind'
            exact hP a' st' hfind' e' b' hext')
    exact key a st hfind e b hext

/-- Witness for the amended C2: a counted extension-less line
(`Makefile`) leaves the extension map empty. -/
theorem c2_extension_bucket_witness :
    ((countLine AuthorStats.empty (some "a1".toList) none 5 2
        "Makefile".toList).by_ext = []) ∧
    ((splitextExtL (toLowerL "Makefile".toList)).isEmpty = true) :=
  ⟨by
    rw [(c2_extension_bucket.1 false
      ⟨[], some "Alice".toList, some "a1".toList, none⟩
      "5\t2\tMakefile".toList "5".toList "2".toList "Makefile".toList 5 2
      (by decide) (by decide) (by decide) (by decide) (by decide)
      (by decide) (by decide)).2 AuthorStats.empty]
    decide, by decide⟩

/-- Counterexample to C2 as stated: the log's only numstat line is
counted (totals 5/2) but its extension-less path `Makefile` puts
nothing in the extension map — there is no bucket under the empty
string (or any other key). -/
theorem c2_counterexample :
    ¬ (∀ st : AuthorStats,
        findV "Alice".toList (parseLines false
          ["COMMIT|a1|Alice|2025-01-06".toList, "5\t2\tMakefile".toList]) =
          some st →
        ∃ b : Bucket, findV ([] : Str) st.by_ext = some b) := by
  intro h
  obtain ⟨b, hb⟩ := h
    ⟨{"a1".toList}, 5, 2, [(739257, ⟨5, 2, {"a1".toList}⟩)], [],
     [("other".toList, ⟨5, 2⟩)]⟩ (by decide)
  exact Option.noConfusion hb

theorem countLine_catIns (st : AuthorStats) (c : Option Str) (d : Option Nat)
    (i j : Int) (fp : Str) :
    sumVals Bucket.inserts (countLine st c d i j fp).by_category =
      sumVals Bucket.inserts st.by_category + i := by
  unfold countLine
  simp only []
  rw [sumVals_updD (get_file_category fp) Bucket.zero
    (fun b => ⟨b.inserts + i, b.deletes + j⟩) Bucket.inserts st.by_category rfl]
  simp only []
  ring

theorem countLine_catDel (st : AuthorStats) (c : Option Str) (d : Option Nat)
    (i j : Int) (fp : Str) :
    sumVals Bucket.deletes (countLine st c d i j fp).by_category =
      sumVals Bucket.deletes st.by_category + j := by
  unfold countLine
  simp only []
  rw [sumVals_updD (get_file_category fp) Bucket.zero
    (fun b => ⟨b.inserts + i, b.deletes + j⟩) Bucket.deletes st.by_category rfl]
  simp only []
  ring

theorem countLine_extIns (st : AuthorStats) (c : Option Str) (d : Option Nat)
    (i j : Int) (fp : Str) :
    sumVals Bucket.inserts (countLine st c d i j fp).by_ext =
      sumVals Bucket.inserts st.by_ext +
        (if (splitextExtL (toLowerL fp)).isEmpty then 0 else i) := by
  unfold countLine
  simp only []
  by_cases hext : (splitextExtL (toLowerL fp)).isEmpty = true
  · rw [if_pos hext, if_pos hext]; ring
  · rw [if_neg hext, if_neg hext, sumVals_updD (splitextExtL (toLowerL fp))
      Bucket.zero (fun b => ⟨b.inserts + i, b.deletes + j⟩) Bucket.inserts
      st.by_ext rfl]
    simp only []
    ring

theorem countLine_extDel (st : AuthorStats) (c : Option Str) (d : Option Nat)
    (i j : Int) (fp : Str) :
    sumVals Bucket.deletes (countLine st c d i j fp).by_ext =
      sumVals Bucket.deletes st.by_ext +
        (if (splitextExtL (toLowerL fp)).isEmpty then 0 else j) := by
  unfold countLine
  simp only []
  by_cases hext : (splitextExtL (toLowerL fp)).isEmpty = true
  · rw [if_pos hext, if_pos hext]; ring
  · rw [if_neg hext, if_neg hext, sumVals_updD (splitextExtL (toLowerL fp))
      Bucket.zero (fun b => ⟨b.inserts + i, b.deletes + j⟩) Bucket.deletes
      st.by_ext rfl]
    simp only []
    ring

theorem countLine_weekIns (st : AuthorStats) (c : Option Str) (d : Option Nat)
    (i j : Int) (fp : Str) :
    sumVals WeekBucket.inserts (countLine st c d i j fp).weekly =
      sumVals WeekBucket.inserts st.weekly + (if d.isSome then i else 0) := by
  unfold countLine
  simp only []
  cases d with
  | none => simp
  | some dt =>
    simp only [Option.isSome_some, if_true]
    rw [sumVals_updD (weekStart dt) WeekBucket.zero
      (fun w => ⟨w.inserts + i, w.deletes + j, insert (c.getD []) w.commits⟩)
      WeekBucket.inserts st.weekly rfl]
    simp only []
    ring

theorem countLine_weekDel (st : AuthorStats) (c : Option Str) (d : Option Nat)
    (i j : Int) (fp : Str) :
    sumVals WeekBucket.deletes (countLine st c d i j fp).weekly =
      sumVals WeekBucket.deletes st.weekly + (if d.isSome then j else 0) := by
  unfold countLine
  simp only []
  cases d with
  | none => simp
  | some dt =>
    simp only [Option.isSome_some, if_true]
    rw [sumVals_updD (weekStart dt) WeekBucket.zero
      (fun w => ⟨w.inserts + i, w.deletes + j, insert (c.getD []) w.commits⟩)
      WeekBucket.deletes st.weekly rfl]
    simp only []
    ring

theorem countLine_ins (st : AuthorStats) (c : Option Str) (d : Option Nat)
    (i j : Int) (fp : Str) :
    (countLine st c d i j fp).inserts = st.inserts + i := rfl

theorem countLine_del (st : AuthorStats) (c : Option Str) (d : Option Nat)
    (i j : Int) (fp : Str) :
    (countLine st c d i j fp).deletes = st.deletes + j := rfl

theorem catSum_exact (excludeDocs : Bool) (lines : List Str) :
    ∀ (a : Str) (st : AuthorStats),
      findV a (parseLines excludeDocs lines) = some st →
      sumVals Bucket.inserts st.by_category = st.inserts ∧
      sumVals Bucket.deletes st.by_category = st.deletes := by
  intro a st hfind
  have key := foldlRec (stepLine excludeDocs)
    (fun s => ∀ a' st', findV a' s.stats = some st' →
      sumVals Bucket.inserts st'.by_category = st'.inserts ∧
      sumVals Bucket.deletes st'.by_category = st'.deletes)
    lines ParseState.init
    (by intro a' st' h; simp [ParseState.init, findV] at h)
    (by
      intro s' l _ hP a' st' hfind'
      rcases stepLine_cases excludeDocs s' l with hcase |
        ⟨insF, delsF, fp, i, j, _, _, _, _, _, _, _, heq⟩
      · rw [hcase] at hfind'; exact hP a' st' hfind'
      · rw [heq, findV_updD] at hfind'
        by_cases ha : a' = s'.author.getD []
        · rw [if_pos ha] at hfind'
          cases hfind'
          have hv0 : sumVals Bucket.inserts
              ((findV (s'.author.getD []) s'.stats).getD AuthorStats.empty).by_category =
              ((findV (s'.author.getD []) s'.stats).getD AuthorStats.empty).inserts ∧
              sumVals Bucket.deletes
              ((findV (s'.author.getD []) s'.stats).getD AuthorStats.empty).by_category =
              ((findV (s'.author.getD []) s'.stats).getD AuthorStats.empty).deletes := by
            cases hfv : findV (s'.author.getD []) s'.stats with
            | none => simp [AuthorStats.empty, sumVals]
            | some v => simpa [hfv] using hP _ v hfv
          constructor
          · rw [countLine_catIns, countLine_ins, hv0.1]
          · rw [countLine_catDel, countLine_del, hv0.2]
        · rw [if_neg ha] at hfind'; exact hP a' st' hfind')
  exact key a st hfind

theorem extWeek_le (excludeDocs : Bool) (lines : List Str)
    (hall : lines.all nonNegLine = true) :
    ∀ (a : Str) (st : AuthorStats),
      findV a (parseLines excludeDocs lines) = some st →
      sumVals Bucket.inserts st.by_ext ≤ st.inserts ∧
      sumVals Bucket.deletes st.by_ext ≤ st.deletes ∧
      sumVals WeekBucket.inserts st.weekly ≤ st.inserts ∧
      sumVals WeekBucket.deletes st.weekly ≤ st.deletes := by
  intro a st hfind
  have key := foldlRec (stepLine excludeDocs)
    (fun s => ∀ a' st', findV a' s.stats = some st' →
      sumVals Bucket.inserts st'.by_ext ≤ st'.inserts ∧
      sumVals Bucket.deletes st'.by_ext ≤ st'.deletes ∧
      sumVals WeekBucket.inserts st'.weekly ≤ st'.inserts ∧
      sumVals WeekBucket.deletes st'.weekly ≤ st'.deletes)
    lines ParseState.init
    (by intro a' st' h; simp [ParseState.init, findV] at h)
    (by
      intro s' l hl hP a' st' hfind'
      rcases stepLine_cases excludeDocs s' l with hcase |
        ⟨insF, delsF, fp, i, j, hsp, _, _, _, _, hi, hj, heq⟩
      · rw [hcase] at hfind'; exact hP a' st' hfind'
      · have hnn := List.all_eq_true.mp hall l hl
        unfold nonNegLine at hnn
        rw [hsp] at hnn
        simp only [hi, hj, Option.getD_some, Bool.and_eq_true,
          decide_eq_true_eq] at hnn
        rw [heq, findV_updD] at hfind'
        by_cases ha : a' = s'.author.getD []
        · rw [if_pos ha] at hfind'
          cases hfind'
          have hv0 :
              sumVals Bucket.inserts
                ((findV (s'.author.getD []) s'.stats).getD AuthorStats.empty).by_ext ≤
                ((findV (s'.author.getD []) s'.stats).getD AuthorStats.empty).inserts ∧
              sumVals Bucket.deletes
                ((findV (s'.author.getD []) s'.stats).getD AuthorStats.empty).by_ext ≤
                ((findV (s'.author.getD []) s'.stats).getD AuthorStats.empty).deletes ∧
              sumVals WeekBucket.inserts
                ((findV (s'.author.getD []) s'.stats).getD AuthorStats.empty).weekly ≤
                ((findV (s'.author.getD []) s'.stats).getD AuthorStats.empty).inserts ∧
              sumVals WeekBucket.deletes
                ((findV (s'.author.getD []) s'.stats).getD AuthorStats.empty).weekly ≤
                ((findV (s'.author.getD []) s'.stats).getD AuthorStats.empty).deletes := by
            cases hfv : findV (s'.author.getD []) s'.stats with
            | none => simp [AuthorStats.empty, sumVals]
            | some v => simpa [hfv] using hP _ v hfv
          obtain ⟨he1, he2, hw1, hw2⟩ := hv0
          refine ⟨?_, ?_, ?_, ?_⟩
          · rw [countLine_extIns, countLine_ins]
            by_cases hx : (splitextExtL (toLowerL fp)).isEmpty = true <;>
              simp only [hx, if_true, if_false, Bool.false_eq_true] <;> omega
          · rw [countLine_extDel, countLine_del]
            by_cases hx : (splitextExtL (toLowerL fp)).isEmpty = true <;>
              simp only [hx, if_true, if_false, Bool.false_eq_true] <;> omega
          · rw [countLine_weekIns, countLine_ins]
            by_cases hx : (s'.date).isSome = true <;>
              simp only [hx, if_true, if_false, Bool.false_eq_true] <;> omega
          · rw [countLine_weekDel, countLine_del]
            by_cases hx : (s'.date).isSome = true <;>
              simp only [hx, if_true, if_false, Bool.false_eq_true] <;> omega
        · rw [if_neg ha] at hfind'; exact hP a' st' hfind')
  exact key a st hfind

theorem extSum_exact (excludeDocs : Bool) (lines : List Str)
    (hall : lines.all extLine = true) :
    ∀ (a : Str) (st : AuthorStats),
      findV a (parseLines excludeDocs lines) = some st →
      sumVals Bucket.inserts st.by_ext = st.inserts ∧
      sumVals Bucket.deletes st.by_ext = st.deletes := by
  intro a st hfind
  have key := foldlRec (stepLine excludeDocs)
    (fun s => ∀ a' st', findV a' s.stats = some st' →
      sumVals Bucket.inserts st'.by_ext = st'.inserts ∧
      sumVals Bucket.deletes st'.by_ext = st'.deletes)
    lines ParseState.init
    (by intro a' st' h; simp [ParseState.init, findV] at h)
    (by
      intro s' l hl hP a' st' hfind'
      rcases stepLine_cases excludeDocs s' l with hcase |
        ⟨insF, delsF, fp, i, j, hsp, _, _, _, _, _, _, heq⟩
      · rw [hcase] at hfind'; exact hP a' st' hfind'
      · have hx := List.all_eq_true.mp hall l hl
        unfold extLine at hx
        rw [hsp] at hx
        simp only [Bool.not_eq_true'] at hx
        rw [heq, findV_updD] at hfind'
        by_cases ha : a' = s'.author.getD []
        · rw [if_pos ha] at hfind'
          cases hfind'
          have hv0 :
              sumVals Bucket.inserts
                ((findV (s'.author.getD []) s'.stats).getD AuthorStats.empty).by_ext =
                ((findV (s'.author.getD []) s'.stats).getD AuthorStats.empty).inserts ∧
              sumVals Bucket.deletes
                ((findV (s'.author.getD []) s'.stats).getD AuthorStats.empty).by_ext =
                ((findV (s'.author.getD []) s'.stats).getD AuthorStats.empty).deletes := by
            cases hfv : findV (s'.author.getD []) s'.stats with
            | none => simp [AuthorStats.empty, sumVals]
            | some v => simpa [hfv] using hP _ v hfv
          constructor
          · rw [countLine_extIns, countLine_ins, hx, hv0.1]
            simp
          · rw [countLine_extDel, countLine_del, hx, hv0.2]
            simp
        · rw [if_neg ha] at hfind'; exact hP a' st' hfind')
  exact key a st hfind

theorem weekSum_exact (excludeDocs : Bool) (lines : List Str)
    (hall : lines.all datedLine = true) :
    ∀ (a : Str) (st : AuthorStats),
      findV a (parseLines excludeDocs lines) = some st →
      sumVals WeekBucket.inserts st.weekly = st.inserts ∧
      sumVals WeekBucket.deletes st.weekly = st.deletes := by
  intro a st hfind
  have key := foldlRec (stepLine excludeDocs)
    (fun s => (authorTruthy s.author = true → s.date.isSome = true) ∧
      ∀ a' st', findV a' s.stats = some st' →
        sumVals WeekBucket.inserts st'.weekly = st'.inserts ∧
        sumVals WeekBucket.deletes st'.weekly = st'.deletes)
    lines ParseState.init
    (⟨by simp [ParseState.init, authorTruthy],
      by intro a' st' h; simp [ParseState.init, findV] at h⟩)
    (by
      intro s' l hl hP
      by_cases hpre : "COMMIT|".toList.isPrefixOf l = true
      · by_cases hlen : 4 ≤ (splitOn1 '|' l).length
        · have hd := List.all_eq_true.mp hall l hl
          unfold datedLine at hd
          rw [hpre] at hd
          simp only [if_true, Bool.or_eq_true, decide_eq_true_eq] at hd
          have hd2 : (pyDateYMD ((splitOn1 '|' l).getD 3 [])).isSome = true := by
            rcases hd with hd | hd
            · exact absurd hd (Nat.not_lt.mpr hlen)
            · exact hd
          by_cases hexcl :
            should_exclude_author (pyStrip ((splitOn1 '|' l).getD 2 [])) = true
          · rw [stepLine_commit_excl excludeDocs s' l hpre hlen hexcl]
            exact ⟨by simp [authorTruthy], hP.2⟩
          · rw [stepLine_commit_ok excludeDocs s' l hpre hlen
              (Bool.eq_false_iff.mpr hexcl)]
            exact ⟨fun _ => hd2, hP.2⟩
        · rw [stepLine_commit_short excludeDocs s' l hpre (Nat.lt_of_not_le hlen)]
          exact hP
      · have hpre' : "COMMIT|".toList.isPrefixOf l = false :=
          Bool.eq_false_iff.mpr hpre
        by_cases hc : countedLine excludeDocs s' l = true
        · obtain ⟨insF, delsF, fp, i, j, hsp, hauth, hdash, hexcl, hi, hj⟩ :=
            countedLine_spec excludeDocs s' l hc
          have hdate : (s'.date).isSome = true := hP.1 hauth
          rw [stepLine_count excludeDocs s' l insF delsF fp i j hpre' hsp hauth
            hdash hexcl hi hj]
          refine ⟨fun _ => hdate, ?_⟩
          intro a' st' hfind'
          simp only [findV_updD] at hfind'
          by_cases ha : a' = s'.author.getD []
          · rw [if_pos ha] at hfind'
            cases hfind'
            have hv0 :
                sumVals WeekBucket.inserts
                  ((findV (s'.author.getD []) s'.stats).getD AuthorStats.empty).weekly =
                  ((findV (s'.author.getD []) s'.stats).getD AuthorStats.empty).inserts ∧
                sumVals WeekBucket.deletes
                  ((findV (s'.author.getD []) s'.stats).getD AuthorStats.empty).weekly =
                  ((findV (s'.author.getD []) s'.stats).getD AuthorStats.empty).deletes := by
              cases hfv : findV (s'.author.getD []) s'.stats with
              | none => simp [AuthorStats.empty, sumVals]
              | some v => simpa [hfv] using hP.2 _ v hfv
            constructor
            · rw [countLine_weekIns, countLine_ins, hdate, hv0.1]
              simp
            · rw [countLine_weekDel, countLine_del, hdate, hv0.2]
              simp
          · rw [if_neg ha] at hfind'
            exact hP.2 a' st' hfind'
        · rw [stepLine_skip excludeDocs s' l hpre' (Bool.eq_false_iff.mpr hc)]
          exact hP)
  exact key.2 a st hfind

/-- C1 (amended): for every author of a parse result the category
bucket sums equal the author's totals exactly; under non-negative
counts (true of all real numstat output) the extension-bucket and
weekly-bucket sums are at most the totals; the extension sums reach
the totals when every counted path has a non-empty extension (the
source skips the extension bucket otherwise), and the weekly sums
reach the totals when every well-formed commit line carries a
parseable date. -/
theorem c1_sum_invariant :
    ∀ (excludeDocs : Bool) (lines : List Str) (a : Str) (st : AuthorStats),
      findV a (parseLines excludeDocs lines) = some st →
      (sumVals Bucket.inserts st.by_category = st.inserts ∧
       sumVals Bucket.deletes st.by_category = st.deletes)
      ∧ (lines.all nonNegLine = true →
          sumVals Bucket.inserts st.by_ext ≤ st.inserts ∧
          sumVals Bucket.deletes st.by_ext ≤ st.deletes ∧
          sumVals WeekBucket.inserts st.weekly ≤ st.inserts ∧
          sumVals WeekBucket.deletes st.weekly ≤ st.deletes)
      ∧ (lines.all extLine = true →
          sumVals Bucket.inserts st.by_ext = st.inserts ∧
          sumVals Bucket.deletes st.by_ext = st.deletes)
      ∧ (lines.all datedLine = true →
          sumVals WeekBucket.inserts st.weekly = st.inserts ∧
          sumVals WeekBucket.deletes st.weekly = st.deletes) :=
  fun ed lines a st hfind =>
    ⟨catSum_exact ed lines a st hfind,
     fun h => extWeek_le ed lines h a st hfind,
     fun h => extSum_exact ed lines h a st hfind,
     fun h => weekSum_exact ed lines h a st hfind⟩

/-- Witness for the amended C1 on Scenario A's log. -/
theorem c1_sum_invariant_witness :
    (findV "Alice".toList (parseLines false
      ["COMMIT|a1|Alice|2025-01-06".toList, "5\t2\tsrc/app.ts".toList]) =
      some ⟨{"a1".toList}, 5, 2, [(739257, ⟨5, 2, {"a1".toList}⟩)],
            [(".ts".toList, ⟨5, 2⟩)], [("fullstack".toList, ⟨5, 2⟩)]⟩)
    ∧ (["COMMIT|a1|Alice|2025-01-06".toList, "5\t2\tsrc/app.ts".toList].all
        nonNegLine = true)
    ∧ (sumVals Bucket.inserts
        [(("fullstack".toList : Str), (⟨5, 2⟩ : Bucket))] = (5 : Int))
    ∧ (sumVals Bucket.inserts [((".ts".toList : Str), (⟨5, 2⟩ : Bucket))] ≤ (5 : Int))
    ∧ (sumVals WeekBucket.inserts
        [((739257 : Nat), (⟨5, 2, {"a1".toList}⟩ : WeekBucket))] = (5 : Int)) :=
  ⟨by decide, by decide,
   (c1_sum_invariant false
     ["COMMIT|a1|Alice|2025-01-06".toList, "5\t2\tsrc/app.ts".toList]
     "Alice".toList ⟨{"a1".toList}, 5, 2, [(739257, ⟨5, 2, {"a1".toList}⟩)],
       [(".ts".toList, ⟨5, 2⟩)], [("fullstack".toList, ⟨5, 2⟩)]⟩ (by decide)).1.1,
   ((c1_sum_invariant false
     ["COMMIT|a1|Alice|2025-01-06".toList, "5\t2\tsrc/app.ts".toList]
     "Alice".toList ⟨{"a1".toList}, 5, 2, [(739257, ⟨5, 2, {"a1".toList}⟩)],
       [(".ts".toList, ⟨5, 2⟩)], [("fullstack".toList, ⟨5, 2⟩)]⟩ (by decide)).2.1 (by decide)).1,
   ((c1_sum_invariant false
     ["COMMIT|a1|Alice|2025-01-06".toList, "5\t2\tsrc/app.ts".toList]
     "Alice".toList ⟨{"a1".toList}, 5, 2, [(739257, ⟨5, 2, {"a1".toList}⟩)],
       [(".ts".toList, ⟨5, 2⟩)], [("fullstack".toList, ⟨5, 2⟩)]⟩ (by decide)).2.2.2 (by decide)).1⟩

/-- Counterexample to C1 as stated: for the counted extension-less
path `Makefile` the author total is 5 but the extension-bucket sum is
0, so the extension sum does not equal `totalInsertions`. -/
theorem c1_counterexample :
    ¬ (∀ st : AuthorStats,
        findV "Alice".toList (parseLines false
          ["COMMIT|a1|Alice|2025-01-06".toList, "5\t2\tMakefile".toList]) =
          some st →
        sumVals Bucket.inserts st.by_ext = st.inserts) := by
  intro h
  exact absurd
    (h ⟨{"a1".toList}, 5, 2, [(739257, ⟨5, 2, {"a1".toList}⟩)], [],
        [("other".toList, ⟨5, 2⟩)]⟩ (by decide))
    (by decide)

theorem unionWeekly_cons (kv : Nat × WeekBucket) (m : List (Nat × WeekBucket)) :
    unionWeekly (kv :: m) = kv.2.commits ∪ unionWeekly m := rfl

theorem unionWeekly_updD (k : Nat) (h : Str) (i j : Int)
    (m : List (Nat × WeekBucket)) :
    unionWeekly (updD k WeekBucket.zero
      (fun w => ⟨w.inserts + i, w.deletes + j, insert h w.commits⟩) m) =
    insert h (unionWeekly m) := by
  induction m with
  | nil =>
    simp only [updD, unionWeekly, List.foldr_cons, List.foldr_nil, WeekBucket.zero]
    simp
  | cons kv rest ih =>
    by_cases hk : k = kv.1
    · rw [show updD k WeekBucket.zero
          (fun w => ⟨w.inserts + i, w.deletes + j, insert h w.commits⟩) (kv :: rest)
          = (kv.1, ⟨kv.2.inserts + i, kv.2.deletes + j, insert h kv.2.commits⟩) :: rest
        from by simp [updD, hk]]
      rw [unionWeekly_cons, unionWeekly_cons]
      simp [Finset.insert_union]
    · rw [show updD k WeekBucket.zero
          (fun w => ⟨w.inserts + i, w.deletes + j, insert h w.commits⟩) (kv :: rest)
          = kv :: updD k WeekBucket.zero
              (fun w => ⟨w.inserts + i, w.deletes + j, insert h w.commits⟩) rest
        from by simp [updD, hk]]
      rw [unionWeekly_cons, unionWeekly_cons, ih]
      simp [Finset.union_insert]

/-- C10: every weekly commit set is a subset of the author's overall
commit set, and when every well-formed commit line carries a parseable
date the union of the weekly commit sets equals the overall set. -/
theorem c10_week_commit_sets :
    (∀ (excludeDocs : Bool) (lines : List Str) (a : Str) (st : AuthorStats),
      findV a (parseLines excludeDocs lines) = some st →
      ∀ (w : Nat) (wb : WeekBucket), findV w st.weekly = some wb →
        wb.commits ⊆ st.commits)
    ∧ (∀ (excludeDocs : Bool) (lines : List Str),
        lines.all datedLine = true →
        ∀ (a : Str) (st : AuthorStats),
          findV a (parseLines excludeDocs lines) = some st →
          unionWeekly st.weekly = st.commits) := by
  constructor
  · intro ed lines a st hfind
    have key := foldlRec (stepLine ed)
      (fun s => ∀ a' st', findV a' s.stats = some st' →
        ∀ w wb, findV w st'.weekly = some wb → wb.commits ⊆ st'.commits)
      lines ParseState.init
      (by intro a' st' h; simp [ParseState.init, findV] at h)
      (by
        intro s' l _ hP a' st' hfind' w wb hwb
        rcases stepLine_cases ed s' l with hcase |
          ⟨insF, delsF, fp, i, j, _, _, _, _, _, _, _, heq⟩
        · rw [hcase] at hfind'; exact hP a' st' hfind' w wb hwb
        · rw [heq, findV_updD] at hfind'
          by_cases ha : a' = s'.author.getD []
          · rw [if_pos ha] at hfind'
            cases hfind'
            revert hwb
            unfold countLine
            simp only []
            have hv0 : ∀ w' wb', findV w'
                ((findV (s'.author.getD []) s'.stats).getD AuthorStats.empty).weekly =
                some wb' →
                wb'.commits ⊆
                ((findV (s'.author.getD []) s'.stats).getD AuthorStats.empty).commits := by
              cases hfv : findV (s'.author.getD []) s'.stats with
              | none => intro w' wb' h; simp [AuthorStats.empty, findV] at h
              | some v => intro w' wb' h; exact hP _ v hfv w' wb' h
            cases hdt : s'.date with
            | none =>
              intro hwb
              exact (hv0 w wb hwb).trans (Finset.subset_insert _ _)
            | some dt =>
              intro hwb
              rw [findV_updD] at hwb
              by_cases hw : w = weekStart dt
              · rw [if_pos hw] at hwb
                cases hwb
                cases hfw : findV (weekStart dt)
                    ((findV (s'.author.getD []) s'.stats).getD AuthorStats.empty).weekly with
                | none =>
                  simp [hfw, WeekBucket.zero]
                | some wb0 =>
                  simp only [hfw, Option.getD_some]
                  exact Finset.insert_subset_insert _ (hv0 _ wb0 hfw)
              · rw [if_neg hw] at hwb
                exact (hv0 w wb hwb).trans (Finset.subset_insert _ _)
          · rw [if_neg ha] at hfind'
            exact hP a' st' hfind' w wb hwb)
    exact key a st hfind
  · intro ed lines hall a st hfind
    have key := foldlRec (stepLine ed)
      (fun s => (authorTruthy s.author = true → s.date.isSome = true) ∧
        ∀ a' st', findV a' s.stats = some st' →
          unionWeekly st'.weekly = st'.commits)
      lines ParseState.init
      (⟨by simp [ParseState.init, authorTruthy],
        by intro a' st' h; simp [ParseState.init, findV] at h⟩)
      (by
        intro s' l hl hP
        by_cases hpre : "COMMIT|".toList.isPrefixOf l = true
        · by_cases hlen : 4 ≤ (splitOn1 '|' l).length
          · have hd := List.all_eq_true.mp hall l hl
            unfold datedLine at hd
            rw [hpre] at hd
            simp only [if_true, Bool.or_eq_true, decide_eq_true_eq] at hd
            have hd2 : (pyDateYMD ((splitOn1 '|' l).getD 3 [])).isSome = true := by
              rcases hd with hd | hd
              · exact absurd hd (Nat.not_lt.mpr hlen)
              · exact hd
            by_cases hexcl :
              should_exclude_author (pyStrip ((splitOn1 '|' l).getD 2 [])) = true
            · rw [stepLine_commit_excl ed s' l hpre hlen hexcl]
              exact ⟨by simp [authorTruthy], hP.2⟩
            · rw [stepLine_commit_ok ed s' l hpre hlen (Bool.eq_false_iff.mpr hexcl)]
              exact ⟨fun _ => hd2, hP.2⟩
          · rw [stepLine_commit_short ed s' l hpre (Nat.lt_of_not_le hlen)]
            exact hP
        · have hpre' : "COMMIT|".toList.isPrefixOf l = false :=
            Bool.eq_false_iff.mpr hpre
          by_cases hc : countedLine ed s' l = true
          · obtain ⟨insF, delsF, fp, i, j, hsp, hauth, hdash, hexcl, hi, hj⟩ :=
              countedLine_spec ed s' l hc
            have hdate := hP.1 hauth
            obtain ⟨dt, hdt⟩ := Option.isSome_iff_exists.mp hdate
            rw [stepLine_count ed s' l insF delsF fp i j hpre' hsp hauth
              hdash hexcl hi hj]
            refine ⟨fun _ => hdate, ?_⟩
            intro a' st' hfind'
            simp only [findV_updD] at hfind'
            by_cases ha : a' = s'.author.getD []
            · rw [if_pos ha] at hfind'
              cases hfind'
              have hv0 : unionWeekly
                  ((findV (s'.author.getD []) s'.stats).getD AuthorStats.empty).weekly =
                  ((findV (s'.author.getD []) s'.stats).getD AuthorStats.empty).commits := by
                cases hfv : findV (s'.author.getD []) s'.stats with
                | none => simp [AuthorStats.empty, unionWeekly]
                | some v => simpa [hfv] using hP.2 _ v hfv
              unfold countLine
              simp only [hdt]
              rw [unionWeekly_updD, hv0]
            · rw [if_neg ha] at hfind'
              exact hP.2 a' st' hfind'
          · rw [stepLine_skip ed s' l hpre' (Bool.eq_false_iff.mpr hc)]
            exact hP)
    exact key.2 a st hfind

/-- Witness for C10 on Scenario A's log. -/
theorem c10_week_commit_sets_witness :
    (findV 739257
      [((739257 : Nat), (⟨5, 2, {"a1".toList}⟩ : WeekBucket))] =
      some ⟨5, 2, {"a1".toList}⟩)
    ∧ ({"a1".toList} : Finset Str) ⊆ {"a1".toList}
    ∧ unionWeekly [((739257 : Nat), (⟨5, 2, {"a1".toList}⟩ : WeekBucket))] =
        ({"a1".toList} : Finset Str) :=
  ⟨by decide,
   c10_week_commit_sets.1 false
     ["COMMIT|a1|Alice|2025-01-06".toList, "5\t2\tsrc/app.ts".toList]
     "Alice".toList
     ⟨{"a1".toList}, 5, 2, [(739257, ⟨5, 2, {"a1".toList}⟩)],
      [(".ts".toList, ⟨5, 2⟩)], [("fullstack".toList, ⟨5, 2⟩)]⟩
     (by decide) 739257 ⟨5, 2, {"a1".toList}⟩ (by decide),
   c10_week_commit_sets.2 false
     ["COMMIT|a1|Alice|2025-01-06".toList, "5\t2\tsrc/app.ts".toList]
     (by decide) "Alice".toList
     ⟨{"a1".toList}, 5, 2, [(739257, ⟨5, 2, {"a1".toList}⟩)],
      [(".ts".toList, ⟨5, 2⟩)], [("fullstack".toList, ⟨5, 2⟩)]⟩
     (by decide)⟩

theorem globMatch_slash (ps t : Str) :
    globMatch ('/' :: ps) t = true ↔
      ∃ y, t = '/' :: y ∧ globMatch ps y = true := by
  cases t with
  | nil => simp [globMatch]
  | cons c cs =>
    show ((decide (('/' : Char) = '?') || decide (('/' : Char) = c))
      && globMatch ps cs) = true ↔ _
    simp only [Bool.and_eq_true, Bool.or_eq_true, decide_eq_true_eq]
    constructor
    · rintro ⟨hc | hc, hm⟩
      · exact absurd hc (by decide)
      · exact ⟨cs, by rw [hc], hm⟩
    · rintro ⟨y, hy, hm⟩
      cases hy
      exact ⟨Or.inr rfl, hm⟩

theorem globMatch_star (ps s : Str) :
    globMatch ('*' :: ps) s = true ↔
      ∃ t, t <:+ s ∧ globMatch ps t = true := by
  rw [show globMatch ('*' :: ps) s = (s.tails.any fun t => globMatch ps t) from
    by cases s <;> rfl]
  rw [List.any_eq_true]
  constructor
  · rintro ⟨t, ht, hm⟩; exact ⟨t, (List.mem_tails _ _).mp ht, hm⟩
  · rintro ⟨t, ht, hm⟩; exact ⟨t, (List.mem_tails _ _).mpr ht, hm⟩

theorem globMatch_star_slash (ps p : Str) :
    globMatch ('*' :: '/' :: ps) p = true ↔
      ∃ x y, p = x ++ '/' :: y ∧ globMatch ps y = true := by
  rw [globMatch_star]
  constructor
  · rintro ⟨t, ⟨x, hx⟩, hm⟩
    obtain ⟨y, rfl, hy⟩ := (globMatch_slash ps t).mp hm
    exact ⟨x, y, hx.symm, hy⟩
  · rintro ⟨x, y, rfl, hy⟩
    exact ⟨'/' :: y, ⟨x, rfl⟩, (globMatch_slash ps _).mpr ⟨y, rfl, hy⟩⟩

theorem containsSub_iff (hay needle : Str) :
    containsSub hay needle = true ↔ needle <:+: hay := by
  unfold containsSub
  rw [List.any_eq_true, List.infix_iff_prefix_suffix]
  constructor
  · rintro ⟨t, ht, hp⟩
    exact ⟨t, List.isPrefixOf_iff_prefix.mp hp, (List.mem_tails _ _).mp ht⟩
  · rintro ⟨t, hp, hs⟩
    exact ⟨t, (List.mem_tails _ _).mpr hs, List.isPrefixOf_iff_prefix.mpr hp⟩

theorem patterns_slash_suffix :
    EXCLUDE_PATTERNS.all (fun pat =>
      pat.contains '/' ==
        (List.isSuffixOf ['/'] pat || List.isSuffixOf ['/', '*'] pat)) = true := by
  decide

/-- C3: `should_exclude_file` returns `true` exactly when the
specification's three-clause condition holds: the docs clause, a glob
match of the full path / basename / some suffix after a `/`, or a
directory-style pattern occurring (stripped of its trailing `/`/`*`)
as a literal substring of the lowercased path.  In particular a path
satisfying none of the clauses is not excluded. -/
theorem c3_exclusion_spec :
    ∀ (excludeDocs : Bool) (p : Str),
      should_exclude_file excludeDocs p = true ↔
        shouldExcludeFileSpec excludeDocs p := by
  intro ed p
  unfold should_exclude_file shouldExcludeFileSpec
  simp only []
  rw [Bool.or_eq_true, Bool.and_eq_true, List.any_eq_true]
  constructor
  · rintro (⟨hed, hdoc⟩ | ⟨pat, hmem, hpat⟩)
    · left
      refine ⟨hed, ?_⟩
      simpa [List.contains] using hdoc
    · simp only [Bool.or_eq_true, Bool.and_eq_true, Bool.not_eq_true'] at hpat
      rcases hpat with ((h1 | h2) | h3) | ⟨hsl, hne, hsub⟩
      · exact Or.inr (Or.inl ⟨pat, hmem, Or.inl h1⟩)
      · exact Or.inr (Or.inl ⟨pat, hmem, Or.inr (Or.inr
          ((globMatch_star_slash pat p).mp h2))⟩)
      · exact Or.inr (Or.inl ⟨pat, hmem, Or.inr (Or.inl h3)⟩)
      · refine Or.inr (Or.inr ⟨pat, hmem, ?_, List.isEmpty_eq_false.mp hne,
          (containsSub_iff _ _).mp hsub⟩)
        have hb := List.all_eq_true.mp patterns_slash_suffix pat hmem
        rw [beq_iff_eq] at hb
        rw [hsl] at hb
        have hb' := hb.symm
        rcases Bool.or_eq_true _ _ |>.mp hb' with h | h
        · exact Or.inl (List.isSuffixOf_iff_suffix.mp h)
        · exact Or.inr (List.isSuffixOf_iff_suffix.mp h)
  · rintro (⟨hed, hdoc⟩ | ⟨pat, hmem, hglob⟩ | ⟨pat, hmem, hsuf, hne, hsub⟩)
    · left
      exact ⟨hed, by simpa [List.contains] using hdoc⟩
    · right
      refine ⟨pat, hmem, ?_⟩
      simp only [Bool.or_eq_true, Bool.and_eq_true, Bool.not_eq_true']
      rcases hglob with h1 | h3 | ⟨x, y, rfl, hy⟩
      · exact Or.inl (Or.inl (Or.inl h1))
      · exact Or.inl (Or.inr h3)
      · exact Or.inl (Or.inl (Or.inr
          ((globMatch_star_slash pat _).mpr ⟨x, y, rfl, hy⟩)))
    · right
      refine ⟨pat, hmem, ?_⟩
      simp only [Bool.or_eq_true, Bool.and_eq_true, Bool.not_eq_true']
      refine Or.inr ⟨?_, List.isEmpty_eq_false.mpr hne,
        (containsSub_iff _ _).mpr hsub⟩
      have hb := List.all_eq_true.mp patterns_slash_suffix pat hmem
      rw [beq_iff_eq] at hb
      rw [hb]
      rcases hsuf with h | h
      · exact Bool.or_eq_true _ _ |>.mpr (Or.inl
          (List.isSuffixOf_iff_suffix.mpr h))
      · exact Bool.or_eq_true _ _ |>.mpr (Or.inr
          (List.isSuffixOf_iff_suffix.mpr h))

/-! ## Generic commuting-fold lemmas -/

theorem foldl_push {β α1 α2 : Type} (f : β → α1 → β) (g : β → α2 → β)
    (comm : ∀ b x y, g (f b x) y = f (g b y) x) (x : α1) :
    ∀ (l2 : List α2) (b : β), List.foldl g (f b x) l2 = f (List.foldl g b l2) x := by
  intro l2
  induction l2 with
  | nil => intro b; rfl
  | cons z zs ih =>
    intro b
    rw [List.foldl_cons, comm, ih, List.foldl_cons]

theorem foldl_swap {β α1 α2 : Type} (f : β → α1 → β) (g : β → α2 → β)
    (comm : ∀ b x y, g (f b x) y = f (g b y) x) :
    ∀ (l1 : List α1) (l2 : List α2) (b : β),
      List.foldl g (List.foldl f b l1) l2 =
        List.foldl f (List.foldl g b l2) l1 := by
  intro l1
  induction l1 with
  | nil => intro l2 b; rfl
  | cons x xs ih =>
    intro l2 b
    rw [List.foldl_cons, ih, foldl_push f g comm, List.foldl_cons]

theorem foldl_view {α β γ : Type} (φ : β → γ) (F : β → α → β) (G : γ → α → γ)
    (h : ∀ b x, φ (F b x) = G (φ b) x) :
    ∀ (l : List α) (b : β), φ (l.foldl F b) = l.foldl G (φ b) := by
  intro l
  induction l with
  | nil => intro b; rfl
  | cons x xs ih =>
    intro b
    rw [List.foldl_cons, ih, h, List.foldl_cons]

/-! ## View-update lemmas -/

theorem findV_eq_updF {κ β : Type} [DecidableEq κ] (k : κ) (d : β) (f : β → β)
    (m : List (κ × β)) :
    (fun j => findV j (updD k d f m)) = updF k d f (fun j => findV j m) := by
  funext j
  rw [findV_updD]
  rfl

theorem updF_comm {κ β : Type} [DecidableEq κ] (k1 k2 : κ) (d : β)
    (f1 f2 : β → β) (hc : ∀ x, f1 (f2 x) = f2 (f1 x)) (m : κ → Option β) :
    updF k1 d f1 (updF k2 d f2 m) = updF k2 d f2 (updF k1 d f1 m) := by
  funext j
  unfold updF
  by_cases h1 : j = k1 <;> by_cases h2 : j = k2
  · subst h1
    subst h2
    simp [hc]
  · subst h1
    rw [if_pos rfl, if_pos rfl, if_neg h2, if_neg h2]
  · subst h2
    rw [if_neg h1, if_pos rfl, if_pos rfl, if_neg h1]
  · rw [if_neg h1, if_neg h2, if_neg h2, if_neg h1]

theorem viewA_empty : viewA AuthorStats.empty = emptyAView := rfl

theorem viewA_countLine (st : AuthorStats) (c : Option Str) (d : Option Nat)
    (i j : Int) (fp : Str) :
    viewA (countLine st c d i j fp) = countView c d i j fp (viewA st) := by
  unfold viewA countLine countView
  simp only [AView.mk.injEq]
  refine ⟨trivial, trivial, trivial, ?_, ?_, ?_⟩
  · cases d with
    | none => rfl
    | some dt => exact findV_eq_updF _ _ _ _
  · by_cases hx : (splitextExtL (toLowerL fp)).isEmpty = true
    · rw [if_pos hx, if_pos hx]
    · rw [if_neg hx, if_neg hx]
      exact findV_eq_updF _ _ _ _
  · exact findV_eq_updF _ _ _ _

theorem viewS_updD_count (a : Str) (c : Option Str) (d : Option Nat)
    (i j : Int) (fp : Str) (m : List (Str × AuthorStats)) :
    viewS (updD a AuthorStats.empty (fun st => countLine st c d i j fp) m) =
      lineView a c d i j fp (viewS m) := by
  funext a2
  unfold viewS lineView
  rw [findV_updD]
  by_cases h : a2 = a
  · rw [if_pos h, if_pos h]
    cases hf : findV a m with
    | none => simp [hf, viewA_countLine, viewA_empty]
    | some v => simp [hf, viewA_countLine]
  · rw [if_neg h, if_neg h]

theorem countedLine_state (excludeDocs : Bool) (s : ParseState) (line : Str) :
    countedLine excludeDocs s line =
      countedLine excludeDocs ⟨[], s.author, s.commit, s.date⟩ line := rfl

theorem body_run (excludeDocs : Bool) (a c : Option Str) (dt : Option Nat) :
    ∀ (body : List Str) (stats0 : List (Str × AuthorStats)),
      (body.all fun l => !("COMMIT|".toList.isPrefixOf l)) = true →
      ∃ stats1,
        body.foldl (stepLine excludeDocs) ⟨stats0, a, c, dt⟩ = ⟨stats1, a, c, dt⟩ ∧
        viewS stats1 = bodyApply excludeDocs a c dt body (viewS stats0) := by
  intro body
  induction body with
  | nil => exact fun stats0 _ => ⟨stats0, rfl, rfl⟩
  | cons l rest ih =>
    intro stats0 hall
    simp only [List.all_cons, Bool.and_eq_true, Bool.not_eq_true'] at hall
    by_cases hc : countedLine excludeDocs ⟨stats0, a, c, dt⟩ l = true
    · obtain ⟨insF, delsF, fp, i, j, hsp, hauth, hdash, hexcl, hi, hj⟩ :=
        countedLine_spec excludeDocs ⟨stats0, a, c, dt⟩ l hc
      have hstep := stepLine_count excludeDocs ⟨stats0, a, c, dt⟩ l
        insF delsF fp i j hall.1 hsp hauth hdash hexcl hi hj
      obtain ⟨stats1, hfold, hview⟩ := ih
        (updD (a.getD []) AuthorStats.empty
          (fun st => countLine st c dt i j fp) stats0) hall.2
      refine ⟨stats1, ?_, ?_⟩
      · rw [List.foldl_cons, hstep]
        exact hfold
      · rw [hview]
        have hlp : lineParams excludeDocs a c dt l = some (a.getD [], i, j, fp) := by
          unfold lineParams
          rw [if_pos (countedLine_state excludeDocs ⟨stats0, a, c, dt⟩ l ▸ hc), hsp]
          simp only [hi, hj]
        rw [viewS_updD_count]
        have hskel : bodyApply excludeDocs a c dt (l :: rest) (viewS stats0) =
            bodyApply excludeDocs a c dt rest
              (elemView excludeDocs a c dt (viewS stats0) l) := rfl
        rw [hskel, show elemView excludeDocs a c dt (viewS stats0) l =
            lineView (a.getD []) c dt i j fp (viewS stats0) from by
          unfold elemView; rw [hlp]]
    · have hcf : countedLine excludeDocs ⟨stats0, a, c, dt⟩ l = false :=
        Bool.eq_false_iff.mpr hc
      have hstep := stepLine_skip excludeDocs ⟨stats0, a, c, dt⟩ l hall.1 hcf
      obtain ⟨stats1, hfold, hview⟩ := ih stats0 hall.2
      refine ⟨stats1, ?_, ?_⟩
      · rw [List.foldl_cons, hstep]
        exact hfold
      · rw [hview]
        have hlp : lineParams excludeDocs a c dt l = none := by
          unfold lineParams
          rw [if_neg (by
            rw [← countedLine_state excludeDocs ⟨stats0, a, c, dt⟩ l]
            simp [hcf])]
        have hskel : bodyApply excludeDocs a c dt (l :: rest) (viewS stats0) =
            bodyApply excludeDocs a c dt rest
              (elemView excludeDocs a c dt (viewS stats0) l) := rfl
        rw [hskel, show elemView excludeDocs a c dt (viewS stats0) l = viewS stats0
          from by unfold elemView; rw [hlp]]

theorem group_run (excludeDocs : Bool) (g : Str × List Str) (s : ParseState)
    (hwf : wfGroup g = true) :
    viewS (((g.1 :: g.2).foldl (stepLine excludeDocs) s).stats) =
      groupApplyV excludeDocs g (viewS s.stats) := by
  unfold wfGroup at hwf
  simp only [Bool.and_eq_true, decide_eq_true_eq] at hwf
  obtain ⟨⟨hpre, hlen⟩, hbody⟩ := hwf
  rw [List.foldl_cons]
  unfold groupApplyV
  simp only []
  by_cases hexcl :
    should_exclude_author (pyStrip ((splitOn1 '|' g.1).getD 2 [])) = true
  · rw [stepLine_commit_excl excludeDocs s g.1 hpre hlen hexcl, if_pos hexcl]
    rw [body_noop excludeDocs g.2 _ rfl hbody]
  · rw [stepLine_commit_ok excludeDocs s g.1 hpre hlen (Bool.eq_false_iff.mpr hexcl),
      if_neg hexcl]
    obtain ⟨stats1, hfold, hview⟩ := body_run excludeDocs
      (some (pyStrip ((splitOn1 '|' g.1).getD 2 [])))
      (some ((splitOn1 '|' g.1).getD 1 []))
      (pyDateYMD ((splitOn1 '|' g.1).getD 3 [])) g.2 s.stats hbody
    rw [hfold]
    exact hview

theorem parse_groups (excludeDocs : Bool) :
    ∀ (gs : List (Str × List Str)) (s : ParseState),
      gs.all wfGroup = true →
      viewS (((joinGroups gs).foldl (stepLine excludeDocs) s).stats) =
        gs.foldl (fun v g => groupApplyV excludeDocs g v) (viewS s.stats) := by
  intro gs
  induction gs with
  | nil => intro s _; rfl
  | cons g rest ih =>
    intro s hall
    simp only [List.all_cons, Bool.and_eq_true] at hall
    have hjoin : joinGroups (g :: rest) = (g.1 :: g.2) ++ joinGroups rest := by
      simp [joinGroups]
    rw [hjoin, List.foldl_append,
      ih (List.foldl (stepLine excludeDocs) s (g.1 :: g.2)) hall.2,
      group_run excludeDocs g s hall.1]
    rfl

theorem countView_comm (c1 c2 : Option Str) (d1 d2 : Option Nat)
    (i1 j1 i2 j2 : Int) (f1 f2 : Str) (av : AView) :
    countView c1 d1 i1 j1 f1 (countView c2 d2 i2 j2 f2 av) =
      countView c2 d2 i2 j2 f2 (countView c1 d1 i1 j1 f1 av) := by
  unfold countView
  simp only [AView.mk.injEq]
  refine ⟨Finset.Insert.comm _ _ _, by ring, by ring, ?_, ?_, ?_⟩
  · cases d1 with
    | none =>
      cases d2 with
      | none => rfl
      | some dt2 => rfl
    | some dt1 =>
      cases d2 with
      | none => rfl
      | some dt2 =>
        exact updF_comm _ _ _ _ _
          (fun x => by
            simp only [WeekBucket.mk.injEq]
            exact ⟨by ring, by ring, Finset.Insert.comm _ _ _⟩) av.weekly
  · by_cases h1 : (splitextExtL (toLowerL f1)).isEmpty = true <;>
      by_cases h2 : (splitextExtL (toLowerL f2)).isEmpty = true <;>
      simp only [h1, h2, if_true, if_false, Bool.false_eq_true]
    exact updF_comm _ _ _ _ _
      (fun x => by
        simp only [Bucket.mk.injEq]
        exact ⟨by ring, by ring⟩) av.by_ext
  · exact updF_comm _ _ _ _ _
      (fun x => by
        simp only [Bucket.mk.injEq]
        exact ⟨by ring, by ring⟩) av.by_category

theorem lineView_comm (a1 a2 : Str) (c1 c2 : Option Str) (d1 d2 : Option Nat)
    (i1 j1 i2 j2 : Int) (f1 f2 : Str) (v : Str → Option AView) :
    lineView a1 c1 d1 i1 j1 f1 (lineView a2 c2 d2 i2 j2 f2 v) =
      lineView a2 c2 d2 i2 j2 f2 (lineView a1 c1 d1 i1 j1 f1 v) := by
  funext x
  unfold lineView
  by_cases h1 : x = a1 <;> by_cases h2 : x = a2
  · subst h1
    subst h2
    rw [if_pos rfl, if_pos rfl, if_pos rfl, if_pos rfl]
    simp only [Option.getD_some]
    rw [countView_comm]
  · subst h1
    rw [if_pos rfl, if_pos rfl, if_neg (fun h => h2 h), if_neg h2]
  · subst h2
    rw [if_neg (fun h => h1 h), if_pos rfl, if_pos rfl, if_neg h1]
  · rw [if_neg h1, if_neg h2, if_neg h2, if_neg h1]

theorem elemView_comm (excludeDocs : Bool) (a1 a2 c1 c2 : Option Str)
    (d1 d2 : Option Nat) (v : Str → Option AView) (l1 l2 : Str) :
    elemView excludeDocs a1 c1 d1 (elemView excludeDocs a2 c2 d2 v l2) l1 =
      elemView excludeDocs a2 c2 d2 (elemView excludeDocs a1 c1 d1 v l1) l2 := by
  unfold elemView
  cases hp1 : lineParams excludeDocs a1 c1 d1 l1 with
  | none =>
    cases hp2 : lineParams excludeDocs a2 c2 d2 l2 with
    | none => rfl
    | some q2 => rfl
  | some q1 =>
    cases hp2 : lineParams excludeDocs a2 c2 d2 l2 with
    | none => rfl
    | some q2 => exact lineView_comm _ _ _ _ _ _ _ _ _ _ _ _ v

theorem groupApplyV_comm (excludeDocs : Bool) (g1 g2 : Str × List Str)
    (v : Str → Option AView) :
    groupApplyV excludeDocs g1 (groupApplyV excludeDocs g2 v) =
      groupApplyV excludeDocs g2 (groupApplyV excludeDocs g1 v) := by
  unfold groupApplyV
  simp only []
  by_cases h1 :
      should_exclude_author (pyStrip ((splitOn1 '|' g1.1).getD 2 [])) = true <;>
    by_cases h2 :
      should_exclude_author (pyStrip ((splitOn1 '|' g2.1).getD 2 [])) = true <;>
    simp only [h1, h2, if_true, if_false, Bool.false_eq_true]
  unfold bodyApply
  exact foldl_swap
    (elemView excludeDocs (some (pyStrip ((splitOn1 '|' g2.1).getD 2 [])))
      (some ((splitOn1 '|' g2.1).getD 1 []))
      (pyDateYMD ((splitOn1 '|' g2.1).getD 3 [])))
    (elemView excludeDocs (some (pyStrip ((splitOn1 '|' g1.1).getD 2 [])))
      (some ((splitOn1 '|' g1.1).getD 1 []))
      (pyDateYMD ((splitOn1 '|' g1.1).getD 3 [])))
    (fun b x y => elemView_comm excludeDocs _ _ _ _ _ _ b y x) g2.2 g1.2 v

theorem viewNest_updD2 {κ β : Type} [DecidableEq κ] (a : Str) (k : κ) (d : β)
    (f : β → β) (m : List (Str × List (κ × β))) :
    viewNest (updD a [] (fun inner => updD k d f inner) m) =
      updF a (fun _ => none) (updF k d f) (viewNest m) := by
  funext x
  unfold viewNest updF
  rw [findV_updD]
  by_cases hx : x = a
  · rw [if_pos hx, if_pos hx]
    cases hf : findV a m with
    | none =>
      simp only [hf, Option.map_none', Option.getD_none, Option.map_some']
      refine congrArg some ?_
      funext k2
      rw [findV_updD]
      by_cases hk : k2 = k
      · rw [if_pos hk, if_pos hk]
        simp [findV]
      · rw [if_neg hk, if_neg hk]
        simp [findV]
    | some inner =>
      simp only [hf, Option.map_some', Option.getD_some]
      refine congrArg some ?_
      funext k2
      rw [findV_updD]
  · rw [if_neg hx, if_neg hx]

theorem gview_foldAuthor (n : Str) (g : GlobalAgg) (kv : Str × AuthorStats) :
    gview (foldAuthor n g kv) = foldAuthorV n (gview g) kv := by
  unfold foldAuthor foldAuthorV
  simp only []
  by_cases hact : kv.2.inserts > 0 ∨ kv.2.deletes > 0
  · rw [if_pos hact, if_pos hact]
    unfold gview
    simp only [GView.mk.injEq]
    refine ⟨by
      show ((g.all_data ++ [_] : List Row) : Multiset Row) = _
      rw [← Multiset.coe_add]
      rfl, ?_, ?_, ?_⟩
    · exact foldl_view viewNest
        (fun m wk => updD kv.1 [] (fun inner => updD wk.1 WeekBucket.zero
          (fun w => ⟨w.inserts + wk.2.inserts, w.deletes + wk.2.deletes,
                     w.commits ∪ wk.2.commits⟩) inner) m)
        (fun m wk => updF kv.1 (fun _ => none) (updF wk.1 WeekBucket.zero
          (fun w => ⟨w.inserts + wk.2.inserts, w.deletes + wk.2.deletes,
                     w.commits ∪ wk.2.commits⟩)) m)
        (fun b x => viewNest_updD2 kv.1 x.1 WeekBucket.zero _ b)
        kv.2.weekly g.weekly_stats
    · exact foldl_view viewNest
        (fun m ek => updD kv.1 [] (fun inner => updD ek.1 Bucket.zero
          (fun b => ⟨b.inserts + ek.2.inserts, b.deletes + ek.2.deletes⟩)
          inner) m)
        (fun m ek => updF kv.1 (fun _ => none) (updF ek.1 Bucket.zero
          (fun b => ⟨b.inserts + ek.2.inserts, b.deletes + ek.2.deletes⟩)) m)
        (fun b x => viewNest_updD2 kv.1 x.1 Bucket.zero _ b)
        kv.2.by_ext g.ext_stats
    · exact foldl_view viewNest
        (fun m ck => updD kv.1 [] (fun inner => updD ck.1 Bucket.zero
          (fun b => ⟨b.inserts + ck.2.inserts, b.deletes + ck.2.deletes⟩)
          inner) m)
        (fun m ck => updF kv.1 (fun _ => none) (updF ck.1 Bucket.zero
          (fun b => ⟨b.inserts + ck.2.inserts, b.deletes + ck.2.deletes⟩)) m)
        (fun b x => viewNest_updD2 kv.1 x.1 Bucket.zero _ b)
        kv.2.by_category g.category_stats
  · rw [if_neg hact, if_neg hact]

theorem gview_analyzeStep (excludeDocs : Bool) (g : GlobalAgg) (r : Str × Str) :
    gview (analyzeStep excludeDocs g r) = analyzeStepV excludeDocs (gview g) r := by
  unfold analyzeStep analyzeStepV
  by_cases hr : r.2.isEmpty = true
  · rw [if_pos hr, if_pos hr]
  · rw [if_neg hr, if_neg hr]
    exact foldl_view gview _ _ (fun b x => gview_foldAuthor r.1 b x)
      (parse_git_log excludeDocs r.2) g

theorem foldAuthorV_comm (n1 n2 : Str) (kv1 kv2 : Str × AuthorStats)
    (v : GView) :
    foldAuthorV n1 (foldAuthorV n2 v kv2) kv1 =
      foldAuthorV n2 (foldAuthorV n1 v kv1) kv2 := by
  unfold foldAuthorV
  simp only []
  by_cases h1 : kv1.2.inserts > 0 ∨ kv1.2.deletes > 0
  · by_cases h2 : kv2.2.inserts > 0 ∨ kv2.2.deletes > 0
    · simp only [if_pos h1, if_pos h2, GView.mk.injEq]
      refine ⟨add_right_comm _ _ _, ?_, ?_, ?_⟩
      · exact foldl_swap _ _
          (fun b x y => updF_comm kv1.1 kv2.1 (fun _ => none) _ _
            (fun inner => updF_comm y.1 x.1 WeekBucket.zero _ _
              (fun w => by
                simp only [WeekBucket.mk.injEq]
                exact ⟨by ring, by ring, Finset.union_right_comm _ _ _⟩) inner) b)
          kv2.2.weekly kv1.2.weekly v.weekly_stats
      · exact foldl_swap _ _
          (fun b x y => updF_comm kv1.1 kv2.1 (fun _ => none) _ _
            (fun inner => updF_comm y.1 x.1 Bucket.zero _ _
              (fun bk => by
                simp only [Bucket.mk.injEq]
                exact ⟨by ring, by ring⟩) inner) b)
          kv2.2.by_ext kv1.2.by_ext v.ext_stats
      · exact foldl_swap _ _
          (fun b x y => updF_comm kv1.1 kv2.1 (fun _ => none) _ _
            (fun inner => updF_comm y.1 x.1 Bucket.zero _ _
              (fun bk => by
                simp only [Bucket.mk.injEq]
                exact ⟨by ring, by ring⟩) inner) b)
          kv2.2.by_category kv1.2.by_category v.category_stats
    · simp only [if_pos h1, if_neg h2]
  · by_cases h2 : kv2.2.inserts > 0 ∨ kv2.2.deletes > 0
    · simp only [if_neg h1, if_pos h2]
    · simp only [if_neg h1, if_neg h2]

theorem analyzeStepV_comm (excludeDocs : Bool) (r1 r2 : Str × Str) (v : GView) :
    analyzeStepV excludeDocs (analyzeStepV excludeDocs v r1) r2 =
      analyzeStepV excludeDocs (analyzeStepV excludeDocs v r2) r1 := by
  unfold analyzeStepV
  by_cases hr1 : r1.2.isEmpty = true
  · by_cases hr2 : r2.2.isEmpty = true
    · simp only [if_pos hr1, if_pos hr2]
    · simp only [if_pos hr1, if_neg hr2]
  · by_cases hr2 : r2.2.isEmpty = true
    · simp only [if_neg hr1, if_pos hr2]
    · simp only [if_neg hr1, if_neg hr2]
      exact foldl_swap (foldAuthorV r1.1) (foldAuthorV r2.1)
        (fun b x y => foldAuthorV_comm r2.1 r1.1 y x b)
        (parse_git_log excludeDocs r1.2) (parse_git_log excludeDocs r2.2) v

/-- C5: parsing the same raw log with its commit groups reordered (each
commit's `COMMIT|` marker line kept together with its own numstat lines)
yields an identical per-author result — the same authors bound to the same
commit sets, totals, weekly, extension and category maps — and the
cross-repository fold of `analyze_repos` gives identical final totals (row
collection and the three nested per-author maps) regardless of the order in
which the repositories are processed. -/
theorem c5_reordering (excludeDocs : Bool)
    (gs1 gs2 : List (Str × List Str)) (hwf : gs1.all wfGroup = true)
    (hp : gs1.Perm gs2)
    (repos1 repos2 : List (Str × Str)) (hr : repos1.Perm repos2) :
    viewS (parseLines excludeDocs (joinGroups gs1)) =
      viewS (parseLines excludeDocs (joinGroups gs2)) ∧
    gview (analyze_repos excludeDocs repos1) =
      gview (analyze_repos excludeDocs repos2) := by
  constructor
  · have hwf2 : gs2.all wfGroup = true := by
      rw [List.all_eq_true] at hwf ⊢
      exact fun g hg => hwf g (hp.mem_iff.mpr hg)
    unfold parseLines
    rw [parse_groups excludeDocs gs1 ParseState.init hwf,
        parse_groups excludeDocs gs2 ParseState.init hwf2]
    exact hp.foldl_eq' (fun x _ y _ v => groupApplyV_comm excludeDocs y x v)
      (viewS ParseState.init.stats)
  · unfold analyze_repos
    rw [foldl_view gview (analyzeStep excludeDocs) (analyzeStepV excludeDocs)
          (fun b x => gview_analyzeStep excludeDocs b x) repos1 GlobalAgg.init,
        foldl_view gview (analyzeStep excludeDocs) (analyzeStepV excludeDocs)
          (fun b x => gview_analyzeStep excludeDocs b x) repos2 GlobalAgg.init]
    exact hr.foldl_eq' (fun x _ y _ v => analyzeStepV_comm excludeDocs x y v)
      (gview GlobalAgg.init)

/-- Concrete instance of the reordering theorem: two commit groups
swapped, and two repositories swapped. -/
theorem c5_reordering_witness :
    ([(("COMMIT|h1|alice|2024-01-01").toList, [("3\t1\ta.py").toList]),
      (("COMMIT|h2|bob|2024-01-02").toList, [("2\t0\tb.md").toList])].all
        wfGroup = true) ∧
    (viewS (parseLines false (joinGroups
       [(("COMMIT|h1|alice|2024-01-01").toList, [("3\t1\ta.py").toList]),
        (("COMMIT|h2|bob|2024-01-02").toList, [("2\t0\tb.md").toList])])) =
     viewS (parseLines false (joinGroups
       [(("COMMIT|h2|bob|2024-01-02").toList, [("2\t0\tb.md").toList]),
        (("COMMIT|h1|alice|2024-01-01").toList, [("3\t1\ta.py").toList])])) ∧
     gview (analyze_repos false
       [(("r1").toList, ("COMMIT|h1|alice|2024-01-01\n3\t1\ta.py").toList),
        (("r2").toList, ("COMMIT|h2|bob|2024-01-02\n2\t0\tb.md").toList)]) =
     gview (analyze_repos false
       [(("r2").toList, ("COMMIT|h2|bob|2024-01-02\n2\t0\tb.md").toList),
        (("r1").toList, ("COMMIT|h1|alice|2024-01-01\n3\t1\ta.py").toList)])) :=
  ⟨by decide,
   c5_reordering false
     [(("COMMIT|h1|alice|2024-01-01").toList, [("3\t1\ta.py").toList]),
      (("COMMIT|h2|bob|2024-01-02").toList, [("2\t0\tb.md").toList])]
     [(("COMMIT|h2|bob|2024-01-02").toList, [("2\t0\tb.md").toList]),
      (("COMMIT|h1|alice|2024-01-01").toList, [("3\t1\ta.py").toList])]
     (by decide) (by decide)
     [(("r1").toList, ("COMMIT|h1|alice|2024-01-01\n3\t1\ta.py").toList),
      (("r2").toList, ("COMMIT|h2|bob|2024-01-02\n2\t0\tb.md").toList)]
     [(("r2").toList, ("COMMIT|h2|bob|2024-01-02\n2\t0\tb.md").toList),
      (("r1").toList, ("COMMIT|h1|alice|2024-01-01\n3\t1\ta.py").toList)]
     (by decide)⟩
